import Mathlib

/-!
# A verification model of the xipfs execute-in-place file system

This file is a shallow embedding, in Lean 4, of the core of the xipfs
file system (`sys/fs/xipfs/{flash,buffer,file,path,driver}.c` and the
file-system directory module).  Non-volatile memory (NVM) is modelled as
a total function from byte addresses to byte values; the C functions are
translated into Lean functions over that state, and the stateful page
buffer and the VFS open-file table are passed around explicitly.

Modelling conventions, fixed once and used throughout:

* Machine integers are `Nat`.  Where 32-bit `size_t` overflow matters
  (the `ROUND` macro of `xipfs_fs_new_file`) the reduction `% 2 ^ 32` is
  written explicitly.  Signed quantities that can actually go negative
  (`off_t` positions, free-page counts) are `Int`.
* The platform constants `FLASHPAGE_SIZE`, `FLASHPAGE_NUMOF`,
  `XIPFS_PATH_MAX` and `XIPFS_FILESIZE_SLOT_MAX` are fields of a
  configuration structure `Cfg`; the values of the target MCU
  (4096, 128, 64, 86) appear as the instance `Cfg.nrf52`.  Theorems are
  proved for every configuration satisfying the layout constraints, and
  witnesses instantiate small configurations so that the definitions
  evaluate quickly.
* `CPU_FLASH_BASE` is 0 on the target MCU (the guard
  `#if CPU_FLASH_BASE > 0` removes the lower bound check in
  `xipfs_flash_in`), so flash addresses range over `[0, flashEnd)`.
  The C `NULL` pointer is the address 0.
* `FLASHPAGE_ERASE_STATE` is `0xff`; the 32-bit erase constant
  `XIPFS_FLASH_ERASE_STATE` is `0xffffffff`.
* Programming a flash word can only clear bits (NOR flash), so the
  physical effect of the word program issued by
  `xipfs_flash_write_unaligned` on the target byte lane is the bitwise
  AND of the old byte and the new byte; the other lanes of the word are
  reprogrammed with their current values and are unchanged.  The
  function's own verify-read (`*(uint8_t *)addr != byte`) is modelled by
  failing (`none`) when the AND differs from the requested byte.
  A hardware page erase is modelled as setting every byte of the page to
  the erase value, so the post-erase check of `xipfs_flash_erase_page`
  never fails.
* C functions returning `-1` with `xipfs_errno` set are modelled with
  `Option`/`Except`: `none`/`.error` is the error return.  Functions
  that return `NULL` either benignly or with `xipfs_errno` set are
  modelled as `Except Unit (Option Nat)`: `.error ()` is "NULL with
  errno set", `.ok none` is the benign NULL.
-/

set_option linter.unusedVariables false

namespace Xipfs

/-- Platform and layout constants of the build, as a record.
`pathMax` is `XIPFS_PATH_MAX`, `slotMax` is `XIPFS_FILESIZE_SLOT_MAX`,
`pageSize` is `FLASHPAGE_SIZE` and `flashPages` is `FLASHPAGE_NUMOF`. -/
structure Cfg where
  pageSize : Nat
  flashPages : Nat
  pathMax : Nat
  slotMax : Nat
  deriving DecidableEq, Repr

/-- The configuration of the nRF52832 target: 4 KiB pages, 512 KiB of
flash, `XIPFS_PATH_MAX = 64`, `XIPFS_FILESIZE_SLOT_MAX = 86`. -/
def Cfg.nrf52 : Cfg := ⟨4096, 128, 64, 86⟩

/-- `sizeof(xipfs_file_t)`: `next` (4 bytes) + `path[pathMax]` +
`reserved` (4 bytes) + `size[slotMax]` (4 bytes each) + `exec`
(4 bytes).  Equals 420 for the target configuration. -/
def Cfg.hdrSize (c : Cfg) : Nat := 12 + c.pathMax + 4 * c.slotMax

/-- Byte offset of the `reserved` field inside a file record. -/
def Cfg.resOff (c : Cfg) : Nat := 4 + c.pathMax

/-- Byte offset of the `size[]` array inside a file record. -/
def Cfg.sizeOff (c : Cfg) : Nat := 8 + c.pathMax

/-- Byte offset of the `exec` field inside a file record. -/
def Cfg.execOff (c : Cfg) : Nat := 8 + c.pathMax + 4 * c.slotMax

/-- NVM contents: a total map from byte address to byte value. -/
def Flash : Type := Nat → Nat

/-- Point update of a flash (or buffer) byte map. -/
def fupd (F : Flash) (a v : Nat) : Flash :=
  fun x => if x = a then v else F x

/-- `FLASHPAGE_ERASE_STATE`: the byte value of an erased cell. -/
def eraseByte : Nat := 255

/-- `XIPFS_FLASH_ERASE_STATE`: the 32-bit erase constant. -/
def eraseWord : Nat := 4294967295

/-- Little-endian byte `i` of the 32-bit value `w`. -/
def leByte (w i : Nat) : Nat := w / 256 ^ i % 256

/-- The four little-endian bytes of a 32-bit value. -/
def le32 (w : Nat) : List Nat := [leByte w 0, leByte w 1, leByte w 2, leByte w 3]

/-- Reading a 32-bit little-endian word from flash (ARM is
little-endian; all multi-byte fields are stored in native order). -/
def readWord (F : Flash) (a : Nat) : Nat :=
  F a + 256 * F (a + 1) + 65536 * F (a + 2) + 16777216 * F (a + 3)

/-- `xipfs_flash_end_addr`: one past the last flash byte
(`CPU_FLASH_BASE + FLASHPAGE_NUMOF * FLASHPAGE_SIZE` with base 0). -/
def flashEnd (c : Cfg) : Nat := c.flashPages * c.pageSize

/-- `xipfs_flash_in`: whether an address lies in the MCU's flash.  With
`CPU_FLASH_BASE = 0` the lower-bound conjunct is compiled out, leaving
only `val < xipfs_flash_end_addr()`. -/
def flashIn (c : Cfg) (a : Nat) : Bool := a < flashEnd c

/-- `xipfs_flash_page_aligned`: `addr % FLASHPAGE_SIZE == 0`. -/
def pageAligned (c : Cfg) (a : Nat) : Bool := a % c.pageSize == 0

/-- `xipfs_flash_overflow`: `!xipfs_flash_in((char *)addr + n)`. -/
def flashOverflow (c : Cfg) (a n : Nat) : Bool := !flashIn c (a + n)

/-- `flashpage_page`: the page number containing an address. -/
def pageOf (c : Cfg) (a : Nat) : Nat := a / c.pageSize

/-- `flashpage_addr`: the first address of a page. -/
def pageAddr (c : Cfg) (p : Nat) : Nat := p * c.pageSize

/-- `xipfs_flash_is_erased_page`: every byte of the page equals the
erase value. -/
def isErasedPage (c : Cfg) (F : Flash) (p : Nat) : Bool :=
  (List.range c.pageSize).all (fun i => F (pageAddr c p + i) == eraseByte)

/-- The flash state after a hardware erase of page `p`. -/
def erasePageMap (c : Cfg) (F : Flash) (p : Nat) : Flash :=
  fun a => if pageAddr c p ≤ a ∧ a < pageAddr c p + c.pageSize then eraseByte else F a

/-- `xipfs_flash_erase_page`: skip the erase when the page is already
erased, otherwise erase it.  The post-erase check of the source cannot
fail in this model (`erasePageMap` leaves the page erased), so the
function is total. -/
def flashErasePage (c : Cfg) (F : Flash) (p : Nat) : Flash :=
  if isErasedPage c F p then F else erasePageMap c F p

/-- `xipfs_flash_write_unaligned`, byte by byte.  Each step reads the
containing write block, clears the destination lane, ORs the new byte
in, and programs the block; on NOR flash the programmed lane holds the
AND of the old and new byte values, and the other lanes are
reprogrammed with their current values.  The verify-read failure
(`return -1`) is `none`. -/
def writeBytes (F : Flash) (dst : Nat) : List Nat → Option Flash
  | [] => some F
  | b :: bs =>
    if F dst &&& b = b then writeBytes (fupd F dst (F dst &&& b)) (dst + 1) bs else none

/-! ## The page buffer (`buffer.c`) -/

/-- The singleton I/O buffer `xipfs_buf`: its state flag
(`XIPFS_BUFFER_OK` = `true`), its page-sized contents indexed by page
offset, and the loaded page number.  The page address of the source is
derivable from the page number and is not duplicated here. -/
structure PBuf where
  ok : Bool
  data : Nat → Nat
  pageNum : Nat

/-- The initial buffer value (`state = XIPFS_BUFFER_KO`), also the
result of the `memset` performed by a completed flush. -/
def PBuf.init : PBuf := ⟨false, fun _ => 0, 0⟩

/-- `xipfs_buffer_need_flush`: the buffer is loaded and some byte
differs from the on-flash page. -/
def pbufNeedFlush (c : Cfg) (F : Flash) (b : PBuf) : Bool :=
  b.ok && (List.range c.pageSize).any
    (fun i => !(b.data i == F (pageAddr c b.pageNum + i)))

/-- `xipfs_buffer_load`: copy a flash page into the buffer. -/
def pbufLoad (c : Cfg) (F : Flash) (num : Nat) : PBuf :=
  ⟨true, fun i => F (pageAddr c num + i), num⟩

/-- `xipfs_buffer_flush`: when the buffer is dirty, erase its page and
program the whole page back from the buffer, then reset the buffer. -/
def pbufFlush (c : Cfg) (F : Flash) (b : PBuf) : Option (Flash × PBuf) :=
  if pbufNeedFlush c F b then
    match writeBytes (flashErasePage c F b.pageNum) (pageAddr c b.pageNum)
        ((List.range c.pageSize).map b.data) with
    | some F2 => some (F2, PBuf.init)
    | none => none
  else some (F, b)

/-- The staging step shared by `xipfs_buffer_read` and
`xipfs_buffer_write` for one byte address: load the containing page if
the buffer is empty; flush and load if a different page is loaded.
The source's in-flash test compares the 0/1-valued `xipfs_flash_in`
with `< 0` and can never fail; it is dead code. -/
def pbufStage (c : Cfg) (F : Flash) (b : PBuf) (ptr : Nat) : Option (Flash × PBuf) :=
  let num := pageOf c ptr
  if b.ok = false then some (F, pbufLoad c F num)
  else if b.pageNum ≠ num then
    match pbufFlush c F b with
    | some (F1, _) => some (F1, pbufLoad c F1 num)
    | none => none
  else some (F, b)

/-- `xipfs_buffer_write`: stage each destination byte's page and update
the buffer byte at the page offset. -/
def pbufWrite (c : Cfg) : Flash → PBuf → Nat → List Nat → Option (Flash × PBuf)
  | F, b, _, [] => some (F, b)
  | F, b, dst, v :: vs =>
    match pbufStage c F b dst with
    | some (F1, b1) =>
      pbufWrite c F1 ⟨b1.ok, fupd b1.data (dst % c.pageSize) v, b1.pageNum⟩ (dst + 1) vs
    | none => none

/-- `xipfs_buffer_read`: stage each source byte's page and copy the
buffer byte at the page offset. -/
def pbufRead (c : Cfg) : Flash → PBuf → Nat → Nat → Option (List Nat × Flash × PBuf)
  | F, b, _, 0 => some ([], F, b)
  | F, b, src, n + 1 =>
    match pbufStage c F b src with
    | some (F1, b1) =>
      match pbufRead c F1 b1 (src + 1) n with
      | some (vs, F2, b2) => some (b1.data (src % c.pageSize) :: vs, F2, b2)
      | none => none
    | none => none

/-- `xipfs_buffer_write_8`. -/
def pbufWrite8 (c : Cfg) (F : Flash) (b : PBuf) (dst v : Nat) : Option (Flash × PBuf) :=
  pbufWrite c F b dst [v]

/-- `xipfs_buffer_write_32`: the word is stored in its little-endian
byte order. -/
def pbufWrite32 (c : Cfg) (F : Flash) (b : PBuf) (dst w : Nat) : Option (Flash × PBuf) :=
  pbufWrite c F b dst (le32 w)

/-- `xipfs_buffer_read_8`. -/
def pbufRead8 (c : Cfg) (F : Flash) (b : PBuf) (src : Nat) : Option (Nat × Flash × PBuf) :=
  match pbufRead c F b src 1 with
  | some (vs, F1, b1) => some (vs.getD 0 0, F1, b1)
  | none => none

/-- `xipfs_buffer_read_32`. -/
def pbufRead32 (c : Cfg) (F : Flash) (b : PBuf) (src : Nat) : Option (Nat × Flash × PBuf) :=
  match pbufRead c F b src 4 with
  | some (vs, F1, b1) =>
    some (vs.getD 0 0 + 256 * vs.getD 1 0 + 65536 * vs.getD 2 0 + 16777216 * vs.getD 3 0, F1, b1)
  | none => none

/-! ## File records (`file.c`)

C strings passed by value (the `path` arguments) are represented as the
list of their bytes strictly before the terminating NUL; indexing past
the end of the list reads 0, matching the terminator and the zero fill
of the source's stack buffers. -/

/-- `xipfs_file_path_charset_check`: `[0-9A-Za-z/._-]`. -/
def charsetCheck (ch : Nat) : Bool :=
  (48 ≤ ch && ch ≤ 57) || (65 ≤ ch && ch ≤ 90) || (97 ≤ ch && ch ≤ 122) ||
  ch == 47 || ch == 46 || ch == 45 || ch == 95

/-- `xipfs_file_path_check` on a C string argument (pre-NUL byte list):
the NULL-pointer case does not apply, the empty path fails, every
character must be in the charset, and a path of `pathMax` or more bytes
has no terminator within `XIPFS_PATH_MAX` and fails. -/
def pathCheckStr (c : Cfg) (p : List Nat) : Bool :=
  !p.isEmpty && p.all charsetCheck && p.length < c.pathMax

/-- The loop of `xipfs_file_path_check` over a path stored in flash:
scan at most `fuel` bytes, stopping at a NUL; when `fuel` runs out the
source tests `path[XIPFS_PATH_MAX]`, the byte just past the array. -/
def pathScan (F : Flash) : Nat → Nat → Bool
  | a, 0 => F a == 0
  | a, fuel + 1 => if F a == 0 then true else charsetCheck (F a) && pathScan F (a + 1) fuel

/-- `xipfs_file_path_check` applied to the `path` field of a file
record stored in flash at address `a` (the field starts at `a + 4`). -/
def pathCheckMem (c : Cfg) (F : Flash) (a : Nat) : Bool :=
  F (a + 4) != 0 && pathScan F (a + 4) c.pathMax

/-- `xipfs_file_filp_check`.  The alignment and in-flash checks on
`filp` itself compare the 0/1-valued helpers with `< 0` and can never
fail (dead code, omitted here); the checks on `filp->next` in the
non-self-loop branch compare with `== 0` and are live. -/
def filpCheck (c : Cfg) (F : Flash) (a : Nat) : Bool :=
  a != 0 &&
  readWord F a != 0 &&
  (if readWord F a ≠ a then
    pageAligned c (readWord F a) &&
    flashIn c (readWord F a) &&
    decide (a < readWord F a) &&
    (a + readWord F (a + c.resOff) == readWord F a)
   else true) &&
  pathCheckMem c F a &&
  (readWord F (a + c.execOff) == 0 || readWord F (a + c.execOff) == 1)

/-- The erase loop of `xipfs_file_erase`: erase `n` consecutive pages
starting at page `start`. -/
def erasePages (c : Cfg) : Flash → Nat → Nat → Flash
  | F, _, 0 => F
  | F, start, n + 1 => erasePages c (flashErasePage c F start) (start + 1) n

/-- `xipfs_file_erase`: validate the record, then erase its
`reserved / FLASHPAGE_SIZE` pages. -/
def fileErase (c : Cfg) (F : Flash) (a : Nat) : Option Flash :=
  if filpCheck c F a then
    some (erasePages c F (pageOf c a) (readWord F (a + c.resOff) / c.pageSize))
  else none

/-- The scan of `xipfs_file_get_size_` from slot `i` with
`slotMax - i` slots remaining: return the value preceding the first
erased slot, or `none` when the loop reaches `slotMax`. -/
def getSizeScan (c : Cfg) (F : Flash) (a : Nat) : Nat → Nat → Option Nat
  | _, 0 => none
  | i, rem + 1 =>
    if readWord F (a + c.sizeOff + 4 * i) == eraseWord then
      some (readWord F (a + c.sizeOff + 4 * (i - 1)))
    else getSizeScan c F a (i + 1) rem

/-- `xipfs_file_get_size_`: 0 when slot 0 is erased, otherwise the
value before the first erased slot; when no slot is erased the last
slot is read through the page buffer. -/
def fileGetSizeRaw (c : Cfg) (F : Flash) (b : PBuf) (a : Nat) : Option (Nat × Flash × PBuf) :=
  if readWord F (a + c.sizeOff) == eraseWord then some (0, F, b)
  else
    match getSizeScan c F a 1 (c.slotMax - 1) with
    | some v => some (v, F, b)
    | none => pbufRead32 c F b (a + c.sizeOff + 4 * (c.slotMax - 1))

/-- `xipfs_file_get_size`: the checked wrapper. -/
def fileGetSize (c : Cfg) (F : Flash) (b : PBuf) (a : Nat) : Option (Nat × Flash × PBuf) :=
  if filpCheck c F a then fileGetSizeRaw c F b a else none

/-- The slot-search loop of `xipfs_file_set_size` from slot `i` with
`slotMax - i` slots remaining: the source breaks at the first slot
whose value is NOT the erase constant, and returns `slotMax` when no
such slot exists. -/
def setSizeScan (c : Cfg) (F : Flash) (a : Nat) : Nat → Nat → Nat
  | i, 0 => i
  | i, rem + 1 =>
    if readWord F (a + c.sizeOff + 4 * i) != eraseWord then i
    else setSizeScan c F a (i + 1) rem

/-- The slot index selected by `xipfs_file_set_size`: the scan starts
at slot 1 and the result is reduced modulo `slotMax`. -/
def setSizeIdx (c : Cfg) (F : Flash) (a : Nat) : Nat :=
  setSizeScan c F a 1 (c.slotMax - 1) % c.slotMax

/-- `xipfs_file_set_size`: validate, pick the slot, write the size
word through the page buffer, flush. -/
def fileSetSize (c : Cfg) (F : Flash) (b : PBuf) (a sz : Nat) : Option (Flash × PBuf) :=
  if filpCheck c F a then
    match pbufWrite32 c F b (a + c.sizeOff + 4 * setSizeIdx c F a) sz with
    | some (F1, b1) => pbufFlush c F1 b1
    | none => none
  else none

/-- `xipfs_file_get_max_pos`: `reserved - sizeof(xipfs_file_t)` as a
signed `off_t`. -/
def fileMaxPos (c : Cfg) (F : Flash) (a : Nat) : Option Int :=
  if filpCheck c F a then some ((readWord F (a + c.resOff) : Int) - (c.hdrSize : Int))
  else none

/-- `xipfs_file_write_8`: validate, bound the position by
`max_pos` (a negative `max_pos` is itself an error return of the
wrapper), and write the byte at `&filp->buf[pos]` through the page
buffer. -/
def fileWrite8 (c : Cfg) (F : Flash) (b : PBuf) (a : Nat) (pos : Int) (v : Nat) :
    Option (Flash × PBuf) :=
  if filpCheck c F a then
    match fileMaxPos c F a with
    | some posMax =>
      if posMax < 0 then none
      else if pos < 0 ∨ pos > posMax then none
      else pbufWrite8 c F b (a + c.hdrSize + pos.toNat) v
    | none => none
  else none

/-- `xipfs_file_read_8`: validate, bound the position, and read the
byte at `&filp->buf[pos]` through the page buffer. -/
def fileRead8 (c : Cfg) (F : Flash) (b : PBuf) (a : Nat) (pos : Int) :
    Option (Nat × Flash × PBuf) :=
  if filpCheck c F a then
    match fileMaxPos c F a with
    | some posMax =>
      if posMax < 0 then none
      else if pos < 0 ∨ pos > posMax then none
      else pbufRead8 c F b (a + c.hdrSize + pos.toNat)
    | none => none
  else none

/-! ## The file directory (the file-system module)

Functions that return a file pointer or `NULL` and report errors
through `xipfs_errno` are modelled as `Except Unit (Option Nat)`:
`.error ()` is "NULL with `xipfs_errno` set", `.ok none` the benign
NULL.  The two unbounded `while` loops (`xipfs_fs_tail` and the
consolidation loop of `xipfs_fs_remove`) are given the fuel
`flashPages + 2`: every successful `xipfs_fs_next` step strictly
increases the (page-aligned) address inside the flash (claim C9), so a
traversal can take at most `flashPages + 1` steps. -/

/-- An xipfs mount point: `vfs.private_data` (the base address of the
partition), `nbpage` and `magic`. -/
structure Mp where
  base : Nat
  nbpage : Nat
  magic : Nat
  deriving DecidableEq, Repr

/-- `xipfs_fs_head`. -/
def fsHeadR (c : Cfg) (F : Flash) (mp : Mp) : Except Unit (Option Nat) :=
  if readWord F mp.base == eraseWord then .ok none
  else if filpCheck c F mp.base then .ok (some mp.base) else .error ()

/-- `xipfs_fs_next` (`nextp` is `filp->next`, that is `readWord F a`). -/
def fsNextR (c : Cfg) (F : Flash) (a : Nat) : Except Unit (Option Nat) :=
  if !filpCheck c F a then .error ()
  else if readWord F a == a then .ok none
  else if readWord F (readWord F a) == eraseWord then .ok none
  else if filpCheck c F (readWord F a) then .ok (some (readWord F a)) else .error ()

/-- Traversal fuel for the directory loops (see the section comment). -/
def tailFuel (c : Cfg) : Nat := c.flashPages + 2

/-- The `do { tailp = filp; filp = xipfs_fs_next(filp); } while` loop of
`xipfs_fs_tail`, started at a known head. -/
def fsTailLoop (c : Cfg) (F : Flash) : Nat → Nat → Except Unit Nat
  | _, 0 => .error ()
  | a, fuel + 1 =>
    match fsNextR c F a with
    | .error () => .error ()
    | .ok none => .ok a
    | .ok (some a') => fsTailLoop c F a' fuel

/-- `xipfs_fs_tail`. -/
def fsTailR (c : Cfg) (F : Flash) (mp : Mp) : Except Unit (Option Nat) :=
  match fsHeadR c F mp with
  | .error () => .error ()
  | .ok none => .ok none
  | .ok (some h) =>
    match fsTailLoop c F h (tailFuel c) with
    | .error () => .error ()
    | .ok t => .ok (some t)

/-- `xipfs_fs_tail_next`: the address where a new file would begin.
The benign-NULL case of `xipfs_fs_tail` yields the base; a self-loop
tail is `XIPFS_EFULL`, an error. -/
def tailNextR (c : Cfg) (F : Flash) (mp : Mp) : Except Unit Nat :=
  match fsTailR c F mp with
  | .error () => .error ()
  | .ok none => .ok mp.base
  | .ok (some t) => if readWord F t == t then .error () else .ok (readWord F t)

/-- `xipfs_fs_free_pages`.  `used` is computed with the C unsigned
subtraction `tail + tail->reserved - head`, which never wraps on a
state whose tail lies at or above its head; the result `nbpage - used`
is a signed `int`. -/
def freePagesR (c : Cfg) (F : Flash) (mp : Mp) : Except Unit Int :=
  match fsHeadR c F mp with
  | .error () => .error ()
  | .ok none => .ok (mp.nbpage : Int)
  | .ok (some h) =>
    match fsTailR c F mp with
    | .error () => .error ()
    | .ok none => .error ()
    | .ok (some t) =>
      .ok ((mp.nbpage : Int) - ((t + readWord F (t + c.resOff) - h) / c.pageSize : Nat))

/-- The `ROUND` macro of the file-system module evaluated in 32-bit
`size_t` arithmetic: `((x + pageSize - 1) & ~(pageSize - 1)) % 2^32`. -/
def round32 (c : Cfg) (x : Nat) : Nat :=
  ((x + c.pageSize - 1) % 4294967296) &&& (4294967296 - c.pageSize)

/-- The `reserved` size computed by `xipfs_fs_new_file`:
`ROUND(size, FLASHPAGE_SIZE)` for a positive size, one page
otherwise. -/
def reservedOf (c : Cfg) (size : Nat) : Nat :=
  if size > 0 then round32 c size else c.pageSize

/-- The `path` field written by `xipfs_fs_new_file`: `strncpy` of the
path over the `FLASHPAGE_ERASE_STATE`-filled header copies the path
bytes, zero-fills up to `XIPFS_PATH_MAX - 1`, and leaves the last byte
in the erase state. -/
def pathFieldBytes (c : Cfg) (p : List Nat) : List Nat :=
  (p.take (c.pathMax - 1) ++ List.replicate (c.pathMax - 1 - p.length) 0) ++ [eraseByte]

/-- The header staged by `xipfs_fs_new_file`: a `memset` to the erase
state followed by the `path`, `reserved`, `next` and `exec` stores; the
`size[]` slots keep the erase state. -/
def headerBytes (c : Cfg) (nxt reserved exec : Nat) (p : List Nat) : List Nat :=
  le32 nxt ++ pathFieldBytes c p ++ le32 reserved ++
    List.replicate (4 * c.slotMax) eraseByte ++ le32 exec

/-- `xipfs_fs_new_file`: validate the path and the exec flag, find the
allocation point and the free-page count, round the requested size up
to pages (one page minimum), choose the `next` pointer (self-loop when
the file exactly fills the free pages, `XIPFS_ENOSPACE` when it does
not fit), then stage the header through the page buffer and flush.
The NULL return is `none` in the first component; every checking
failure happens before any buffer or flash call, so those paths carry
the entry state unchanged.  (The two buffer operations themselves fail
only on byte values that no load or store of this module produces;
those branches also report the entry state.) -/
def newFile (c : Cfg) (F : Flash) (b : PBuf) (mp : Mp) (path : List Nat)
    (size exec : Nat) : Option Nat × Flash × PBuf :=
  if !pathCheckStr c path then (none, F, b)
  else if exec ≠ 0 ∧ exec ≠ 1 then (none, F, b)
  else
    match tailNextR c F mp with
    | .error () => (none, F, b)
    | .ok filp =>
      match freePagesR c F mp with
      | .error () => (none, F, b)
      | .ok freePages =>
        if freePages < 0 then (none, F, b)
        else
          if (reservedOf c size / c.pageSize : Int) < freePages ∨
             (reservedOf c size / c.pageSize : Int) = freePages then
            match pbufWrite c F b filp
                (headerBytes c
                  (if (reservedOf c size / c.pageSize : Int) < freePages
                   then filp + reservedOf c size else filp)
                  (reservedOf c size) exec path) with
            | some (F1, b1) =>
              match pbufFlush c F1 b1 with
              | some (F2, b2) => (some filp, F2, b2)
              | none => (none, F, b)
            | none => (none, F, b)
          else (none, F, b)

/-- The inner page loop of `xipfs_fs_remove`
(`for (i = 1; i < pagenum; i++)`): a source page that is not entirely
erased is programmed to the destination and erased; the cursors advance
by one page either way.  Returns the final destination cursor together
with the flash.  The source interleaves the per-byte reads and writes
of `xipfs_flash_write_unaligned`; destination and source pages are
disjoint whenever the removed file's reserved size is at least one
page, so reading the source from the pre-write flash is equivalent. -/
def copyPages (c : Cfg) : Flash → Nat → Nat → Nat → Option (Flash × Nat)
  | F, dst, _, 0 => some (F, dst)
  | F, dst, src, n + 1 =>
    if isErasedPage c F (pageOf c src) then
      copyPages c F (dst + c.pageSize) (src + c.pageSize) n
    else
      match writeBytes F dst ((List.range c.pageSize).map (fun i => F (src + i))) with
      | some F1 =>
        copyPages c (flashErasePage c F1 (pageOf c src)) (dst + c.pageSize)
          (src + c.pageSize) n
      | none => none

/-- The consolidation `while (next != NULL)` loop of `xipfs_fs_remove`.
Each iteration moves one successor file: read its header, patch `next`
to `dst + size` where `size = src->next - src`, program the patched
header and the rest of the first page at `dst`, erase the source's
first page, then move the remaining `size / FLASHPAGE_SIZE - 1` pages.
The header `memcpy` happens before any write, so its bytes come from
the current flash. -/
def consolidate (c : Cfg) : Nat → Flash → Nat → Option Nat → Option Flash
  | 0, _, _, _ => none
  | fuel + 1, F, dst, next =>
    match next with
    | none => some F
    | some src =>
      match fsNextR c F src with
      | .error () => none
      | .ok next' =>
        match writeBytes F dst (le32 (dst + (readWord F src - src)) ++
            (List.range (c.hdrSize - 4)).map (fun i => F (src + 4 + i))) with
        | none => none
        | some F1 =>
          match writeBytes F1 (dst + c.hdrSize)
              ((List.range (c.pageSize - c.hdrSize)).map (fun i => F1 (src + c.hdrSize + i))) with
          | none => none
          | some F2 =>
            match copyPages c (flashErasePage c F2 (pageOf c src)) (dst + c.pageSize)
                (src + c.pageSize) ((readWord F src - src) / c.pageSize - 1) with
            | some (F4, dst') => consolidate c fuel F4 dst' next'
            | none => none

/-- `xipfs_fs_remove`: fetch the successor of the removed file (from
the original flash, before any mutation), erase the removed file's
pages, then run the consolidation loop. -/
def fsRemove (c : Cfg) (F : Flash) (dst : Nat) : Option Flash :=
  match fsNextR c F dst with
  | .error () => none
  | .ok next =>
    match fileErase c F dst with
    | some F1 => consolidate c (tailFuel c) F1 dst next
    | none => none

/-! ## The driver (`driver.c`) -/

/-- POSIX error numbers used by the driver. -/
def EIO : Nat := 5

/-- `EFAULT`. -/
def EFAULT : Nat := 14

/-- `EINVAL`. -/
def EINVAL : Nat := 22

/-- `xipfs_mp_check` (the NULL-pointer case does not arise for a mount
structure passed by value). -/
def mpCheck (c : Cfg) (mp : Mp) : Except Nat Unit :=
  if mp.magic ≠ 0xf9d3b6cb then .error EINVAL
  else if mp.nbpage = 0 then .error EINVAL
  else if mp.nbpage > c.flashPages then .error EFAULT
  else .ok ()

/-- The erased-region scan of `xipfs_mount0`: `n` 32-bit reads stepping
by 4 bytes, all of which must read the erase constant. -/
def scanWords (F : Flash) : Nat → Nat → Bool
  | _, 0 => true
  | a, n + 1 => readWord F a == eraseWord && scanWords F (a + 4) n

/-- `xipfs_mount0`: validate the mount structure, check file-system
integrity via the tail traversal, then require every word from
`xipfs_fs_tail_next` to the end of the mount to be in the erase
state. -/
def mount0 (c : Cfg) (F : Flash) (mp : Mp) : Except Nat Unit :=
  match mpCheck c mp with
  | .error e => .error e
  | .ok () =>
    match fsTailR c F mp with
    | .error () => .error EIO
    | .ok _ =>
      match tailNextR c F mp with
      | .error () => .error EIO
      | .ok start =>
        let stop := mp.base + mp.nbpage * c.pageSize
        if scanWords F start ((stop - start + 3) / 4) then .ok () else .error EIO

/-- The `private_data.ptr` of a tracked VFS file: either the static
`xipfs_infos_file` sentinel or the address of an xipfs file record. -/
inductive PrivData
  | infos
  | fileAt (a : Nat)
  deriving DecidableEq, Repr

/-- A tracked VFS open file structure (only the field the table walks
read). -/
structure VfsFile where
  privateData : PrivData
  deriving DecidableEq, Repr

/-- One step of the `vfs_open_files_untrack_all` walk.  The source
reads `vfs_open_files[i]->private_data.ptr` without checking the slot
for NULL; dereferencing an empty (NULL) slot is undefined behaviour and
is modelled as `none`. -/
def untrackAllStep (c : Cfg) (mp : Mp) (slot : Option VfsFile) : Option (Option VfsFile) :=
  match slot with
  | none => none
  | some f =>
    match f.privateData with
    | .infos => some (some f)
    | .fileAt a =>
      if mp.base ≤ a ∧ a < mp.base + mp.nbpage * c.pageSize then some none
      else some (some f)

/-- `vfs_open_files_untrack_all`: drop every tracked entry whose file
lies in the mount, walking every slot of the table. -/
def vfsUntrackAll (c : Cfg) (mp : Mp) (tbl : List (Option VfsFile)) :
    Option (List (Option VfsFile)) :=
  tbl.mapM (untrackAllStep c mp)

/-- One step of the `vfs_open_files_update` walk; like
`untrackAllStep`, the slot is dereferenced without a NULL check. -/
def updateStep (c : Cfg) (mp : Mp) (removed reserved : Nat) (slot : Option VfsFile) :
    Option (Option VfsFile) :=
  match slot with
  | none => none
  | some f =>
    match f.privateData with
    | .infos => some (some f)
    | .fileAt a =>
      if mp.base ≤ a ∧ a < mp.base + mp.nbpage * c.pageSize then
        if a > removed then some (some ⟨.fileAt (a - reserved)⟩)
        else if a = removed then some none
        else some (some f)
      else some (some f)

/-- `vfs_open_files_update`: after a removal, displace the tracked
addresses above the removed file and invalidate the removed file's
entries. -/
def vfsUpdate (c : Cfg) (mp : Mp) (removed reserved : Nat)
    (tbl : List (Option VfsFile)) : Option (List (Option VfsFile)) :=
  tbl.mapM (updateStep c mp removed reserved)

/-! ## The path classifier (`path.c`)

`xipfs_path_new_n` walks the on-NVM file list with
`xipfs_fs_head`/`xipfs_fs_next` and only ever reads the `path` field of
each visited record; the walk is abstracted here to the list of those
path fields in visit order.  Paths (both the stored ones and the query)
are the byte lists before the terminating NUL; reading past the end of
a list yields 0, which matches both the terminator of a valid stored
path and the zero fill of the `memset` query buffers.  The model is the
`n = 1` instance (`xipfs_path_new`).  `pm` is `XIPFS_PATH_MAX`. -/

/-- Read character `i` of a path buffer (0 past the end). -/
def charAt (p : List Nat) (i : Nat) : Nat := p.getD i 0

/-- The loop of `compare_paths` from index `i` with `pm - i` steps
remaining. -/
def comparePathsAux (p1 p2 : List Nat) : Nat → Nat → Nat
  | i, 0 => i
  | i, rem + 1 =>
    if charAt p1 i ≠ charAt p2 i then i
    else if charAt p1 i = 0 then i
    else if charAt p2 i = 0 then i
    else comparePathsAux p1 p2 (i + 1) rem

/-- `compare_paths`: the index of the first differing character. -/
def comparePaths (pm : Nat) (p1 p2 : List Nat) : Nat :=
  comparePathsAux p1 p2 0 pm

/-- `exists_as_file`. -/
def existsAsFile (p1 p2 : List Nat) (i : Nat) : Bool :=
  decide (0 < i) &&
  (charAt p1 (i - 1) != 47) && (charAt p1 (i - 1) != 0) && (charAt p1 i == 0) &&
  (charAt p2 (i - 1) != 47) && (charAt p2 (i - 1) != 0) && (charAt p2 i == 0)

/-- `exists_as_empty_dir`. -/
def existsAsEmptyDir (pm : Nat) (p1 p2 : List Nat) (i : Nat) : Bool :=
  (decide (0 < i) &&
    (charAt p1 (i - 1) == 47) && (charAt p1 i == 0) &&
    (charAt p2 (i - 1) == 47) && (charAt p2 i == 0)) ||
  (decide (0 < i) && decide (i < pm - 1) &&
    (charAt p1 (i - 1) != 47) && (charAt p1 (i - 1) != 0) &&
    (charAt p1 i == 47) && (charAt p1 (i + 1) == 0) &&
    (charAt p2 (i - 1) != 47) && (charAt p2 (i - 1) != 0) && (charAt p2 i == 0))

/-- `exists_as_nonempty_dir`. -/
def existsAsNonemptyDir (pm : Nat) (p1 p2 : List Nat) (i : Nat) : Bool :=
  (decide (0 < i) &&
    (charAt p1 (i - 1) == 47) && (charAt p1 i != 47) && (charAt p1 i != 0) &&
    (charAt p2 (i - 1) == 47) && (charAt p2 i == 0)) ||
  (decide (0 < i) && decide (i < pm - 1) &&
    (charAt p1 (i - 1) != 47) && (charAt p1 (i - 1) != 0) &&
    (charAt p1 i == 47) && (charAt p1 (i + 1) != 47) && (charAt p1 (i + 1) != 0) &&
    (charAt p2 (i - 1) != 47) && (charAt p2 (i - 1) != 0) && (charAt p2 i == 0))

/-- `invalid_because_not_dirs`. -/
def invalidBecauseNotDirs (pm : Nat) (p1 p2 : List Nat) (i : Nat) : Bool :=
  decide (0 < i) && decide (i < pm - 1) &&
  (charAt p1 (i - 1) != 47) && (charAt p1 (i - 1) != 0) && (charAt p1 i == 0) &&
  (charAt p2 (i - 1) != 47) && (charAt p2 (i - 1) != 0) && (charAt p2 i == 47) &&
  (charAt p2 (i + 1) != 47) && (charAt p2 (i + 1) != 0)

/-- `strncmp(p, q, n) == 0`: the compared prefixes agree, stopping at a
NUL. -/
def strncmpEqAux (p q : List Nat) : Nat → Nat → Bool
  | _, 0 => true
  | i, n + 1 =>
    (charAt p i == charAt q i) && ((charAt p i == 0) || strncmpEqAux p q (i + 1) n)

/-- `strncmp(p, q, n) == 0`. -/
def strncmpEq (p q : List Nat) (n : Nat) : Bool := strncmpEqAux p q 0 n

/-- `creatable`: all components of the query's dirname occur as a
prefix of the stored path. -/
def creatableB (p1 dirname2 : List Nat) (len : Nat) : Bool :=
  strncmpEq p1 dirname2 len

/-- The `xipfs_path_t` structure (the `basename` and `dirname` fields
are computed by `xipfs_path_init` but never read by `xipfs_path_new_n`
and are omitted; `witness` is the index of the witness record in visit
order, `none` for the C NULL). -/
structure XiPath where
  path : List Nat
  len : Nat
  lastSlash : Nat
  parent : Nat
  witness : Option Nat
  info : Nat
  deriving DecidableEq, Repr

/-- `XIPFS_PATH_UNDEFINED` through `XIPFS_PATH_INVALID_BECAUSE_NOT_FOUND`. -/
def pUNDEFINED : Nat := 0

/-- `XIPFS_PATH_CREATABLE`. -/
def pCREATABLE : Nat := 1

/-- `XIPFS_PATH_EXISTS_AS_FILE`. -/
def pFILE : Nat := 2

/-- `XIPFS_PATH_EXISTS_AS_EMPTY_DIR`. -/
def pEMPTYDIR : Nat := 3

/-- `XIPFS_PATH_EXISTS_AS_NONEMPTY_DIR`. -/
def pNONEMPTYDIR : Nat := 4

/-- `XIPFS_PATH_INVALID_BECAUSE_NOT_DIRS`. -/
def pNOTDIRS : Nat := 5

/-- `XIPFS_PATH_INVALID_BECAUSE_NOT_FOUND`. -/
def pNOTFOUND : Nat := 6

/-- The `last_slash` scan of `xipfs_path_init`: the largest index
holding a `/` followed by a character that is not the terminator. -/
def lastSlashScan (p : List Nat) : Nat → Nat → Nat → Nat
  | _, acc, 0 => acc
  | i, acc, rem + 1 =>
    lastSlashScan p (i + 1)
      (if charAt p i == 47 && charAt p (i + 1) != 0 then i else acc) rem

/-- `xipfs_path_init` (without the unused `basename`/`dirname`):
`memset` to zero, copy the path, record its length and last slash; the
root path `/` is special-cased. -/
def xipathInit (p : List Nat) : XiPath :=
  if p = [47] then ⟨[47], 1, 0, 0, none, 0⟩
  else ⟨p, p.length, lastSlashScan p 0 0 p.length, 0, none, 0⟩

/-- The parent-prefix count of the record loop of `xipfs_path_new_n`:
`strncmp(xipaths[j].path, filp->path, xipaths[j].last_slash)`. -/
def classParent (q : List Nat) (x : XiPath) : XiPath :=
  if strncmpEq x.path q x.lastSlash then { x with parent := x.parent + 1 } else x

/-- The classification part of the record loop of `xipfs_path_new_n`
for one visited record `q` (index `idx` in visit order), entered while
the query is still `UNDEFINED` or `CREATABLE`.  `none` models the
aborting returns (`compare_paths` reaching `XIPFS_PATH_MAX`, and
`-ENAMETOOLONG` when appending the directory slash overflows). -/
def classBody (pm : Nat) (q : List Nat) (idx : Nat) (x : XiPath) : Option XiPath :=
  if x.info = pUNDEFINED ∨ x.info = pCREATABLE then
    let i := comparePaths pm q x.path
    if i = pm then none
    else if existsAsFile q x.path i then
      some { x with info := pFILE, witness := some idx }
    else if existsAsEmptyDir pm q x.path i then
      if charAt x.path (x.len - 1) ≠ 47 then
        if x.len = pm - 1 then none
        else some { x with path := x.path ++ [47], len := x.len + 1,
                           info := pEMPTYDIR, witness := some idx }
      else some { x with info := pEMPTYDIR, witness := some idx }
    else if existsAsNonemptyDir pm q x.path i then
      if charAt x.path (x.len - 1) ≠ 47 then
        if x.len = pm - 1 then none
        else some { x with path := x.path ++ [47], len := x.len + 1,
                           info := pNONEMPTYDIR, witness := some idx }
      else some { x with info := pNONEMPTYDIR, witness := some idx }
    else if invalidBecauseNotDirs pm q x.path i then
      some { x with info := pNOTDIRS, witness := some idx }
    else if creatableB q x.path (x.lastSlash + 1) then
      some { x with info := pCREATABLE, witness := some idx }
    else some x
  else some x

/-- One iteration of the record loop of `xipfs_path_new_n`: count the
parent prefix, then classify. -/
def classStep (pm : Nat) (q : List Nat) (idx : Nat) (x : XiPath) : Option XiPath :=
  classBody pm q idx (classParent q x)

/-- The record loop of `xipfs_path_new_n` over the visited records. -/
def classFold (pm : Nat) : List (List Nat) → Nat → XiPath → Option XiPath
  | [], _, x => some x
  | q :: qs, idx, x =>
    match classStep pm q idx x with
    | some x' => classFold pm qs (idx + 1) x'
    | none => none

/-- The final pass of `xipfs_path_new_n`: a still-`UNDEFINED` query has
a missing parent component. -/
def pathNewFinal (x : XiPath) : XiPath :=
  if x.info = pUNDEFINED then { x with info := pNOTFOUND, witness := none } else x

/-- The empty-file-system branch of `xipfs_path_new_n`: with no
witness record, only creatability directly under the root can be
established. -/
def pathNewEmpty (p : List Nat) : XiPath :=
  if creatableB [47] (xipathInit p).path
      (if (xipathInit p).lastSlash > 0 then (xipathInit p).lastSlash - 1 else 0) then
    { xipathInit p with info := pCREATABLE, witness := none }
  else xipathInit p

/-- `xipfs_path_new` (`xipfs_path_new_n` with `n = 1`): reject queries
that are empty or do not start with `/`, walk the records, handle the
empty file system, then turn `UNDEFINED` into
`INVALID_BECAUSE_NOT_FOUND`. -/
def pathNew (pm : Nat) (records : List (List Nat)) (p : List Nat) : Option XiPath :=
  if charAt p 0 == 0 then none
  else if charAt p 0 != 47 then none
  else
    match records with
    | [] => some (pathNewFinal (pathNewEmpty p))
    | _ :: _ =>
      match classFold pm records 0 (xipathInit p) with
      | some x1 => some (pathNewFinal x1)
      | none => none

/-! ### Spec-side path predicates

These three predicates state the amended claim C6; they are not part
of the source. -/

/-- The query path ends in `/`. -/
def endsSlash (p : List Nat) : Bool := charAt p (p.length - 1) == 47

/-- A stored path strictly extends the query at a component boundary:
`q` is `p` followed by `/` (and possibly more) — `p` is really a
directory. -/
def strictExt (q p : List Nat) : Bool :=
  decide (p.length < q.length) && decide (q.take p.length = p) && (charAt q p.length == 47)

/-- A strict prefix of the query, ending where the query has a `/`, is
itself a stored file path — a parent component of `p` is a file. -/
def prefixBlock (q p : List Nat) : Bool :=
  decide (q.length < p.length) && decide (p.take q.length = q) && (charAt p q.length == 47)

/-- The visit-order index of the first record equal to `p` (spec-side:
identifies the witness of an `EXISTS_AS_FILE` classification). -/
def recIndex : List (List Nat) → List Nat → Nat
  | [], _ => 0
  | q :: qs, p => if q = p then 0 else recIndex qs p + 1

/-! ### Spec-side consolidation predicates

These three predicates state claim C1's file list and its amended
conclusion; they are not part of the source. -/

/-- The file list `[A, S1, ..., Sk]` of claim C1 as laid out in flash:
for each listed reserved size `r` a valid record sits at `a` with
`next = a + r` and `reserved = r`, and past the listed records sits
the terminal self-loop. -/
def chain (c : Cfg) (F : Flash) : Nat → List Nat → Bool
  | a, [] => filpCheck c F a && (readWord F a == a)
  | a, r :: rs =>
    decide (0 < r) && filpCheck c F a && (readWord F a == a + r) &&
      (readWord F (a + c.resOff) == r) && chain c F (a + r) rs

/-- Every listed file moved down by `Δ`: each record's `next` field
re-targeted relative to its new address, every other byte of its
reserved run equal to the source byte, and the terminal self-loop
re-created at its new address with the bytes of its first page. -/
def shifted (c : Cfg) (F G : Flash) (Δ : Nat) : Nat → List Nat → Prop
  | a, [] => readWord G (a - Δ) = a - Δ ∧
      (∀ i, 4 ≤ i → i < c.pageSize → G (a - Δ + i) = F (a + i))
  | a, r :: rs => readWord G (a - Δ) = a - Δ + r ∧
      (∀ i, 4 ≤ i → i < r → G (a - Δ + i) = F (a + i)) ∧
      shifted c F G Δ (a + r) rs

/-- Iterating `xipfs_fs_next` from `a` visits the listed records in
order and then reports the terminal. -/
def iterates (c : Cfg) (F : Flash) : Nat → List Nat → Prop
  | a, [] => fsNextR c F a = .ok none
  | a, r :: rs => fsNextR c F a = .ok (some (a + r)) ∧ iterates c F (a + r) rs

/-! ## Concrete states used by counterexamples and witnesses

`cfgS` is a small configuration (64-byte pages, 2 flash pages, 4-byte
paths, 4 size slots) on which the definitions evaluate quickly; the
layout relations between its fields are the same as for `Cfg.nrf52`
(`hdrSize = 12 + pathMax + 4 * slotMax ≤ pageSize`, a power-of-two page
size). -/

/-- A small test configuration. -/
def cfgS : Cfg := ⟨64, 2, 4, 4⟩

/-- The serialized header of a one-page self-loop file `/a` at address
64 whose size slots hold `10, 20, 30, erased`. -/
def hdrC3 : List Nat :=
  le32 64 ++ [47, 97, 0, 0] ++ le32 64 ++
    le32 10 ++ le32 20 ++ le32 30 ++ le32 eraseWord ++ le32 0

/-- Flash holding only the `hdrC3` file at 64; everything else is
erased. -/
def flashC3 : Flash :=
  fun x => if x < 64 then eraseByte
           else (hdrC3 ++ List.replicate 32 eraseByte).getD (x - 64) eraseByte

/-- Like `hdrC3` but with size slots `5, erased, erased, erased`. -/
def hdrC4 : List Nat :=
  le32 64 ++ [47, 97, 0, 0] ++ le32 64 ++
    le32 5 ++ le32 eraseWord ++ le32 eraseWord ++ le32 eraseWord ++ le32 0

/-- Flash holding only the `hdrC4` file at 64. -/
def flashC4 : Flash :=
  fun x => if x < 64 then eraseByte
           else (hdrC4 ++ List.replicate 32 eraseByte).getD (x - 64) eraseByte

/-- A one-page mount at base 64 with the correct magic; together with
`flashC3` it is a completely full, invariant-satisfying file system
(one self-loop file filling the single page). -/
def mpFull : Mp := ⟨64, 1, 0xf9d3b6cb⟩

/-- A fully erased flash. -/
def flashEmpty : Flash := fun _ => eraseByte

/-- A one-page mount at base 64 over the erased flash: an empty file
system. -/
def mpEmpty : Mp := ⟨64, 1, 0xf9d3b6cb⟩

/-- A three-page configuration for the removal scenario. -/
def cfg1 : Cfg := ⟨64, 3, 4, 4⟩

/-- Header of the removal victim `/a` at address 64: one page reserved,
`next` at 128. -/
def hdrA1 : List Nat :=
  le32 128 ++ [47, 97, 0, 0] ++ le32 64 ++
    le32 eraseWord ++ le32 eraseWord ++ le32 eraseWord ++ le32 eraseWord ++ le32 0

/-- Header of the terminal self-loop file `/b` at address 128: one page
reserved, `next` pointing to itself. -/
def hdrB1 : List Nat :=
  le32 128 ++ [47, 98, 0, 0] ++ le32 64 ++
    le32 eraseWord ++ le32 eraseWord ++ le32 eraseWord ++ le32 eraseWord ++ le32 0

/-- Flash with the chain `[/a at 64, /b at 128]`, `/b` the terminal
self-loop carrying the payload byte `65` right after its header. -/
def flashC1 : Flash :=
  fun x => (List.replicate 64 eraseByte ++ hdrA1 ++ List.replicate 32 eraseByte ++
    hdrB1 ++ [65] ++ List.replicate 31 eraseByte).getD x eraseByte

/-- A six-page configuration for the three-file removal scenario. -/
def cfgW : Cfg := ⟨64, 6, 4, 4⟩

/-- Header of the removal victim `/a` at 64: one page, `next` at 128. -/
def hdrW1 : List Nat :=
  le32 128 ++ [47, 97, 0, 0] ++ le32 64 ++
    le32 eraseWord ++ le32 eraseWord ++ le32 eraseWord ++ le32 eraseWord ++ le32 0

/-- Header of the interior file `/b` at 128: two reserved pages,
`next` at 256. -/
def hdrW2 : List Nat :=
  le32 256 ++ [47, 98, 0, 0] ++ le32 128 ++
    le32 eraseWord ++ le32 eraseWord ++ le32 eraseWord ++ le32 eraseWord ++ le32 0

/-- Header of the terminal self-loop `/c` at 256: one reserved page. -/
def hdrW3 : List Nat :=
  le32 256 ++ [47, 99, 0, 0] ++ le32 64 ++
    le32 eraseWord ++ le32 eraseWord ++ le32 eraseWord ++ le32 eraseWord ++ le32 0

/-- Flash with the chain `[/a at 64, /b at 128, /c terminal at 256]`:
`/b` spans two pages with payload bytes `66` and `67`, the terminal
`/c` carries payload byte `68`. -/
def flashW : Flash :=
  fun x => (List.replicate 64 eraseByte ++ hdrW1 ++ List.replicate 32 eraseByte ++
    hdrW2 ++ [66] ++ List.replicate 31 eraseByte ++ [67] ++ List.replicate 63 eraseByte ++
    hdrW3 ++ [68] ++ List.replicate 31 eraseByte ++
    List.replicate 64 eraseByte).getD x eraseByte

/-! ## General lemmas -/

theorem Cfg.hdrSize_nrf52 : Cfg.nrf52.hdrSize = 420 := rfl

theorem fupd_same (F : Flash) (a v : Nat) : fupd F a v a = v := by
  simp [fupd]

theorem fupd_other (F : Flash) (a v x : Nat) (h : x ≠ a) :
    fupd F a v x = F x := by
  simp [fupd, h]

theorem le32_length (w : Nat) : (le32 w).length = 4 := rfl

theorem leByte_lt (w i : Nat) : leByte w i < 256 :=
  Nat.mod_lt _ (by omega)

theorem le32_mem_lt {w v : Nat} (h : v ∈ le32 w) : v < 256 := by
  simp only [le32, List.mem_cons, List.not_mem_nil, or_false] at h
  rcases h with rfl | rfl | rfl | rfl <;> exact leByte_lt _ _

theorem le32_getD {w j : Nat} (h : j < 4) : (le32 w).getD j 0 = leByte w j := by
  interval_cases j <;> rfl

/-- Recombining the four little-endian bytes of a 32-bit store yields
the value modulo `2 ^ 32`. -/
theorem le32_combine (x : Nat) :
    leByte x 0 + 256 * leByte x 1 + 65536 * leByte x 2 + 16777216 * leByte x 3 =
      x % 4294967296 := by
  unfold leByte
  simp only [pow_zero, pow_one, Nat.div_one]
  omega

/-- AND with the high mask `2 ^ E - 2 ^ e` clears the low `e` bits:
the `~(y - 1)` of the `ROUND` macro. -/
theorem and_high_mask {e E x : Nat} (he : e ≤ E) (hx : x < 2 ^ E) :
    x &&& (2 ^ E - 2 ^ e) = x / 2 ^ e * 2 ^ e := by
  have hmask : (2 ^ E - 2 ^ e) = (2 ^ (E - e) - 1) <<< e := by
    rw [Nat.shiftLeft_eq, Nat.sub_one_mul, ← Nat.pow_add]
    congr 2
    omega
  have hr : x / 2 ^ e * 2 ^ e = (x >>> e) <<< e := by
    rw [Nat.shiftLeft_eq, Nat.shiftRight_eq_div_pow]
  rw [hmask, hr]
  apply Nat.eq_of_testBit_eq
  intro i
  rw [Nat.testBit_land, Nat.testBit_shiftLeft, Nat.testBit_shiftLeft,
    Nat.testBit_two_pow_sub_one, Nat.testBit_shiftRight]
  by_cases hie : e ≤ i
  · by_cases hiE : i < E
    · simp [ge_iff_le, hie, Nat.lt_sub_iff_add_lt, show e + (i - e) = i by omega,
        show i - e < E - e by omega]
    · have hb : x.testBit i = false :=
        Nat.testBit_eq_false_of_lt (lt_of_lt_of_le hx (Nat.pow_le_pow_right (by omega) (by omega)))
      have hb' : x.testBit (e + (i - e)) = false := by
        rwa [show e + (i - e) = i by omega]
      simp [hb, hb', show ¬(i - e < E - e) by omega]
  · simp [ge_iff_le, hie]

/-- `xipfs_flash_write_unaligned` on an erased destination holding
byte values: it succeeds and overlays the data on the flash. -/
theorem writeBytes_erased :
    ∀ (data : List Nat) (F : Flash) (dst : Nat),
      (∀ k, k < data.length → F (dst + k) = eraseByte) →
      (∀ v ∈ data, v < 256) →
      ∃ F', writeBytes F dst data = some F' ∧
        ∀ x, F' x = if dst ≤ x ∧ x < dst + data.length then data.getD (x - dst) 0 else F x := by
  intro data
  induction data with
  | nil =>
    intro F dst _ _
    refine ⟨F, rfl, fun x => ?_⟩
    rw [if_neg (by simp only [List.length_nil]; omega)]
  | cons v vs ih =>
    intro F dst he hv
    have h0 : F dst = eraseByte := by simpa using he 0 (by simp)
    have hv0 : v < 256 := hv v (by simp)
    have hveq : F dst &&& v = v := by
      rw [h0]
      show 255 &&& v = v
      rw [Nat.land_comm]
      calc v &&& 255 = v &&& (2 ^ 8 - 1) := rfl
        _ = v % 2 ^ 8 := Nat.and_pow_two_sub_one_eq_mod v 8
        _ = v := Nat.mod_eq_of_lt hv0
    obtain ⟨F', hw, hchar⟩ := ih (fupd F dst v) (dst + 1)
      (fun k hk => by
        rw [fupd_other _ _ _ _ (by omega)]
        simpa [Nat.add_assoc] using he (1 + k) (by simp; omega))
      (fun u hu => hv u (by simp [hu]))
    refine ⟨F', ?_, fun x => ?_⟩
    · unfold writeBytes
      rw [if_pos hveq, hveq]
      exact hw
    · rw [hchar x]
      rcases Nat.lt_trichotomy x dst with hx | rfl | hx
      · rw [if_neg (by omega), if_neg (by omega), fupd_other _ _ _ _ (by omega)]
      · rw [if_neg (by omega), if_pos (by simp), fupd_same]
        simp
      · by_cases hxin : x < dst + 1 + vs.length
        · rw [if_pos (by omega), if_pos (by simp; omega)]
          have : x - dst = (x - (dst + 1)) + 1 := by omega
          rw [this]
          rfl
        · rw [if_neg (by omega), if_neg (by simp; omega), fupd_other _ _ _ _ (by omega)]

theorem isErasedPage_iff {c : Cfg} {F : Flash} {p : Nat} :
    isErasedPage c F p = true ↔ ∀ i, i < c.pageSize → F (pageAddr c p + i) = eraseByte := by
  simp [isErasedPage, List.all_eq_true, List.mem_range]

/-- The pointwise effect of `xipfs_flash_erase_page`. -/
theorem flashErasePage_spec (c : Cfg) (F : Flash) (p : Nat) (x : Nat) :
    flashErasePage c F p x =
      if pageAddr c p ≤ x ∧ x < pageAddr c p + c.pageSize then eraseByte else F x := by
  unfold flashErasePage
  by_cases h : isErasedPage c F p
  · rw [if_pos h]
    by_cases hx : pageAddr c p ≤ x ∧ x < pageAddr c p + c.pageSize
    · rw [if_pos hx]
      have := isErasedPage_iff.mp h (x - pageAddr c p) (by omega)
      rwa [show pageAddr c p + (x - pageAddr c p) = x by omega] at this
    · rw [if_neg hx]
  · rw [if_neg h]
    rfl

theorem map_range_getD {f : Nat → Nat} {n j : Nat} (h : j < n) :
    ((List.range n).map f).getD j 0 = f j := by
  rw [List.getD_eq_getElem?_getD, List.getElem?_map, List.getElem?_range h]
  rfl

/-- The pointwise effect of a successful `xipfs_buffer_flush` on a
loaded buffer of byte values: the buffer's page now holds the buffer's
contents and nothing else changed. -/
theorem pbufFlush_spec {c : Cfg} {F : Flash} {b : PBuf}
    (hok : b.ok = true) (hbytes : ∀ i, i < c.pageSize → b.data i < 256) :
    ∃ F' b', pbufFlush c F b = some (F', b') ∧
      ∀ x, F' x = if pageAddr c b.pageNum ≤ x ∧ x < pageAddr c b.pageNum + c.pageSize
                  then b.data (x - pageAddr c b.pageNum) else F x := by
  unfold pbufFlush
  by_cases hnf : pbufNeedFlush c F b = true
  · rw [if_pos hnf]
    obtain ⟨F', hw, hchar⟩ := writeBytes_erased ((List.range c.pageSize).map b.data)
      (flashErasePage c F b.pageNum) (pageAddr c b.pageNum)
      (fun k hk => by
        rw [flashErasePage_spec]
        rw [if_pos (by simp at hk; omega)])
      (fun v hvm => by
        simp only [List.mem_map, List.mem_range] at hvm
        obtain ⟨i, hi, rfl⟩ := hvm
        exact hbytes i hi)
    rw [hw]
    refine ⟨F', PBuf.init, rfl, fun x => ?_⟩
    rw [hchar x]
    simp only [List.length_map, List.length_range]
    by_cases hx : pageAddr c b.pageNum ≤ x ∧ x < pageAddr c b.pageNum + c.pageSize
    · rw [if_pos hx, if_pos hx, map_range_getD (by omega)]
    · rw [if_neg hx, if_neg hx, flashErasePage_spec, if_neg hx]
  · rw [if_neg hnf]
    refine ⟨F, b, rfl, fun x => ?_⟩
    by_cases hx : pageAddr c b.pageNum ≤ x ∧ x < pageAddr c b.pageNum + c.pageSize
    · rw [if_pos hx]
      have : ∀ i, i < c.pageSize → b.data i = F (pageAddr c b.pageNum + i) := by
        intro i hi
        by_contra hne
        apply hnf
        unfold pbufNeedFlush
        rw [hok, Bool.true_and, List.any_eq_true]
        exact ⟨i, List.mem_range.mpr hi, by simpa using hne⟩
      have := this (x - pageAddr c b.pageNum) (by omega)
      rw [this, show pageAddr c b.pageNum + (x - pageAddr c b.pageNum) = x by omega]
    · rw [if_neg hx]

theorem mod_succ_of_lt {P dst : Nat} (h : dst % P + 1 < P) :
    (dst + 1) % P = dst % P + 1 := by
  have hdm : P * (dst / P) + dst % P = dst := Nat.div_add_mod dst P
  calc (dst + 1) % P = (P * (dst / P) + (dst % P + 1)) % P := by
        rw [← Nat.add_assoc, hdm]
    _ = (dst % P + 1) % P := Nat.mul_add_mod _ _ _
    _ = dst % P + 1 := Nat.mod_eq_of_lt h

theorem div_succ_of_lt {P dst : Nat} (h : dst % P + 1 < P) :
    (dst + 1) / P = dst / P := by
  have hdm : P * (dst / P) + dst % P = dst := Nat.div_add_mod dst P
  have hP : 0 < P := by omega
  calc (dst + 1) / P = (P * (dst / P) + (dst % P + 1)) / P := by
        rw [← Nat.add_assoc, hdm]
    _ = dst / P + (dst % P + 1) / P := Nat.mul_add_div hP _ _
    _ = dst / P := by rw [Nat.div_eq_of_lt h, Nat.add_zero]

/-- Writing a span of bytes that stays within the loaded page through
the buffer: the flash is untouched and the buffer bytes of the span
are replaced. -/
theorem pbufWrite_within {c : Cfg} (F : Flash) :
    ∀ (data : List Nat) (b : PBuf) (dst : Nat), b.ok = true →
      (data ≠ [] → pageOf c dst = b.pageNum) →
      dst % c.pageSize + data.length ≤ c.pageSize →
      ∃ b', pbufWrite c F b dst data = some (F, b') ∧ b'.ok = true ∧
        b'.pageNum = b.pageNum ∧
        ∀ j, b'.data j =
          if dst % c.pageSize ≤ j ∧ j < dst % c.pageSize + data.length
          then data.getD (j - dst % c.pageSize) 0 else b.data j := by
  intro data
  induction data with
  | nil =>
    intro b dst hok _ _
    refine ⟨b, rfl, hok, rfl, fun j => ?_⟩
    rw [if_neg (by simp only [List.length_nil]; omega)]
  | cons v vs ih =>
    intro b dst hok hpg hlen
    have hP : 0 < c.pageSize := by simp at hlen; omega
    have hpg' : pageOf c dst = b.pageNum := hpg (by simp)
    have hstage : pbufStage c F b dst = some (F, b) := by
      unfold pbufStage
      rw [if_neg (by simp [hok]), if_neg (by simp [hpg'.symm])]
    have hmod : dst % c.pageSize < c.pageSize := Nat.mod_lt _ hP
    have hlen' : dst % c.pageSize + (vs.length + 1) ≤ c.pageSize := by
      simpa using hlen
    have hmodcase : vs.length = 0 ∨ (dst + 1) % c.pageSize = dst % c.pageSize + 1 := by
      rcases Nat.eq_zero_or_pos vs.length with h0 | h1
      · exact Or.inl h0
      · exact Or.inr (mod_succ_of_lt (by omega))
    set b1 : PBuf := ⟨b.ok, fupd b.data (dst % c.pageSize) v, b.pageNum⟩ with hb1
    have hpgrec : vs ≠ [] → pageOf c (dst + 1) = b1.pageNum := by
      intro hne
      have hvs : vs.length ≠ 0 := fun h0 => hne (List.eq_nil_of_length_eq_zero h0)
      have hlt : dst % c.pageSize + 1 < c.pageSize := by omega
      show pageOf c (dst + 1) = b.pageNum
      unfold pageOf
      rw [div_succ_of_lt hlt]
      exact hpg'
    have hlenrec : (dst + 1) % c.pageSize + vs.length ≤ c.pageSize := by
      rcases hmodcase with h0 | h1
      · have : (dst + 1) % c.pageSize < c.pageSize := Nat.mod_lt _ hP
        omega
      · omega
    obtain ⟨b', hw, hok', hpg'', hchar⟩ := ih b1 (dst + 1) hok hpgrec hlenrec
    refine ⟨b', ?_, hok', hpg'', fun j => ?_⟩
    · unfold pbufWrite
      rw [hstage]
      exact hw
    · rw [hchar j]
      simp only [List.length_cons]
      by_cases hj1 : (dst + 1) % c.pageSize ≤ j ∧ j < (dst + 1) % c.pageSize + vs.length
      · have hmod1 : (dst + 1) % c.pageSize = dst % c.pageSize + 1 := by
          rcases hmodcase with h0 | h1
          · omega
          · exact h1
        rw [if_pos hj1, if_pos (by rw [hmod1] at hj1; omega)]
        rw [hmod1] at hj1
        have : j - dst % c.pageSize = (j - (dst + 1) % c.pageSize) + 1 := by
          rw [hmod1]; omega
        rw [this]
        rfl
      · rw [if_neg hj1]
        by_cases hj2 : dst % c.pageSize ≤ j ∧ j < dst % c.pageSize + (vs.length + 1)
        · have hjeq : j = dst % c.pageSize := by
            rcases hmodcase with h0 | h1
            · omega
            · rw [h1] at hj1; omega
          rw [if_pos hj2, hjeq]
          show fupd b.data (dst % c.pageSize) v (dst % c.pageSize) = _
          rw [fupd_same]
          simp
        · rw [if_neg hj2]
          show fupd b.data (dst % c.pageSize) v j = b.data j
          rw [fupd_other _ _ _ _ (by omega)]

/-- Starting a buffer write with an empty (KO) buffer first loads the
page of the first destination byte; from there on the write behaves as
if that page had been loaded all along. -/
theorem pbufWrite_cold {c : Cfg} {F : Flash} {b : PBuf} {dst : Nat} {data : List Nat}
    (hb : b.ok = false) (hne : data ≠ []) :
    pbufWrite c F b dst data = pbufWrite c F (pbufLoad c F (pageOf c dst)) dst data := by
  cases data with
  | nil => exact absurd rfl hne
  | cons v vs =>
    have hs1 : pbufStage c F b dst = some (F, pbufLoad c F (pageOf c dst)) := by
      unfold pbufStage
      rw [if_pos hb]
    have hs2 : pbufStage c F (pbufLoad c F (pageOf c dst)) dst =
        some (F, pbufLoad c F (pageOf c dst)) := by
      unfold pbufStage
      rw [if_neg (by simp [pbufLoad]), if_neg (by simp [pbufLoad])]
    show pbufWrite c F b dst (v :: vs) = pbufWrite c F (pbufLoad c F (pageOf c dst)) dst (v :: vs)
    unfold pbufWrite
    rw [hs1, hs2]

theorem pathCheckStr_length {c : Cfg} {p : List Nat} (h : pathCheckStr c p = true) :
    p.length < c.pathMax := by
  unfold pathCheckStr at h
  simp only [Bool.and_eq_true, decide_eq_true_eq] at h
  exact h.2

theorem charsetCheck_lt {ch : Nat} (h : charsetCheck ch = true) : ch < 256 := by
  unfold charsetCheck at h
  simp only [Bool.or_eq_true, Bool.and_eq_true, decide_eq_true_eq, beq_iff_eq] at h
  omega

theorem pathCheckStr_mem_lt {c : Cfg} {p : List Nat} (h : pathCheckStr c p = true) :
    ∀ v ∈ p, v < 256 := by
  intro v hv
  unfold pathCheckStr at h
  simp only [Bool.and_eq_true, List.all_eq_true] at h
  exact charsetCheck_lt (h.1.2 v hv)

theorem pathFieldBytes_length {c : Cfg} {p : List Nat} (hp : p.length < c.pathMax) :
    (pathFieldBytes c p).length = c.pathMax := by
  unfold pathFieldBytes
  simp only [List.length_append, List.length_take, List.length_replicate, List.length_singleton]
  omega

theorem headerBytes_length {c : Cfg} {n r e : Nat} {p : List Nat}
    (hp : p.length < c.pathMax) :
    (headerBytes c n r e p).length = c.hdrSize := by
  unfold headerBytes Cfg.hdrSize
  simp only [List.length_append, le32_length, List.length_replicate,
    pathFieldBytes_length hp]
  omega

theorem pathFieldBytes_mem_lt {c : Cfg} {p : List Nat} (hp : ∀ v ∈ p, v < 256) :
    ∀ v ∈ pathFieldBytes c p, v < 256 := by
  intro v hv
  unfold pathFieldBytes at hv
  simp only [List.mem_append, List.mem_singleton, List.mem_replicate] at hv
  rcases hv with (hv | hv) | hv
  · exact hp v (List.mem_of_mem_take hv)
  · omega
  · rw [hv]; unfold eraseByte; omega

theorem headerBytes_mem_lt {c : Cfg} {n r e : Nat} {p : List Nat}
    (hp : ∀ v ∈ p, v < 256) :
    ∀ v ∈ headerBytes c n r e p, v < 256 := by
  intro v hv
  unfold headerBytes at hv
  simp only [List.mem_append] at hv
  rcases hv with (((hv | hv) | hv) | hv) | hv
  · exact le32_mem_lt hv
  · exact pathFieldBytes_mem_lt hp v hv
  · exact le32_mem_lt hv
  · rw [List.eq_of_mem_replicate hv]; unfold eraseByte; omega
  · exact le32_mem_lt hv

theorem headerBytes_getD_next {c : Cfg} {n r e j : Nat} {p : List Nat} (hj : j < 4) :
    (headerBytes c n r e p).getD j 0 = leByte n j := by
  unfold headerBytes
  rw [List.append_assoc, List.append_assoc, List.append_assoc,
    List.getD_append _ _ _ _ (by rw [le32_length]; omega)]
  exact le32_getD hj

theorem headerBytes_getD_res {c : Cfg} {n r e j : Nat} {p : List Nat}
    (hp : p.length < c.pathMax) (hj : j < 4) :
    (headerBytes c n r e p).getD (4 + c.pathMax + j) 0 = leByte r j := by
  unfold headerBytes
  rw [List.append_assoc, List.append_assoc, List.append_assoc,
    List.getD_append_right _ _ _ _ (by rw [le32_length]; omega)]
  rw [show 4 + c.pathMax + j - (le32 n).length = c.pathMax + j from by rw [le32_length]; omega]
  rw [List.getD_append_right _ _ _ _ (by rw [pathFieldBytes_length hp]; omega)]
  rw [show c.pathMax + j - (pathFieldBytes c p).length = j from by
    rw [pathFieldBytes_length hp]; omega]
  rw [List.getD_append _ _ _ _ (by rw [le32_length]; omega)]
  exact le32_getD hj

/-- Staging a fully in-page byte span at a page-aligned address through
an empty buffer and flushing installs exactly those bytes on the page
and changes nothing else. -/
theorem pbufWriteFlush_aligned {c : Cfg} {F : Flash} {b : PBuf} {w : Nat} {data : List Nat}
    (hclean : b.ok = false) (hw : w % c.pageSize = 0)
    (hne : data ≠ []) (hlen : data.length ≤ c.pageSize)
    (hF : ∀ x, F x < 256) (hdata : ∀ v ∈ data, v < 256) :
    ∃ bmid F' b'', pbufWrite c F b w data = some (F, bmid) ∧
      pbufFlush c F bmid = some (F', b'') ∧
      ∀ x, F' x = if w ≤ x ∧ x < w + data.length then data.getD (x - w) 0 else F x := by
  have hP : 0 < c.pageSize := by
    rcases data with _ | ⟨v, vs⟩
    · exact absurd rfl hne
    · simp at hlen; omega
  have hpa : pageAddr c (pageOf c w) = w := by
    unfold pageAddr pageOf
    exact Nat.div_mul_cancel (Nat.dvd_of_mod_eq_zero hw)
  obtain ⟨bmid, hwr, hok, hpg, hchar⟩ :=
    pbufWrite_within (c := c) F data (pbufLoad c F (pageOf c w)) w rfl (fun _ => rfl)
      (by rw [hw]; simpa using hlen)
  have hbytes : ∀ i, i < c.pageSize → bmid.data i < 256 := by
    intro i hi
    rw [hchar i, hw]
    by_cases hin : 0 ≤ i ∧ i < 0 + data.length
    · rw [if_pos hin]
      have : data.getD (i - 0) 0 ∈ data := by
        rw [List.getD_eq_getElem?_getD, List.getElem?_eq_getElem (by omega)]
        exact List.getElem_mem _
      exact hdata _ this
    · rw [if_neg hin]
      show F (pageAddr c (pageOf c w) + i) < 256
      exact hF _
  obtain ⟨F', b'', hfl, hflc⟩ := pbufFlush_spec hok hbytes
  refine ⟨bmid, F', b'', ?_, hfl, fun x => ?_⟩
  · rw [pbufWrite_cold hclean hne]
    exact hwr
  · rw [hflc x, hpg]
    show (if pageAddr c (pbufLoad c F (pageOf c w)).pageNum ≤ x ∧
            x < pageAddr c (pbufLoad c F (pageOf c w)).pageNum + c.pageSize
          then bmid.data (x - pageAddr c (pbufLoad c F (pageOf c w)).pageNum) else F x) = _
    have hpgL : (pbufLoad c F (pageOf c w)).pageNum = pageOf c w := rfl
    rw [hpgL, hpa]
    by_cases hx : w ≤ x ∧ x < w + c.pageSize
    · rw [if_pos hx, hchar (x - w), hw]
      by_cases hxd : x < w + data.length
      · rw [if_pos (by omega), if_pos (by omega)]
        simp
      · rw [if_neg (by omega), if_neg (by omega)]
        show F (pageAddr c (pageOf c w) + (x - w)) = F x
        rw [hpa, show w + (x - w) = x by omega]
    · rw [if_neg hx, if_neg (by omega)]

/-- The value of the `reserved` size computed by `xipfs_fs_new_file`
when the 32-bit addition in `ROUND` does not wrap: the specification's
`max(PAGE_SIZE, ceil(size / PAGE_SIZE) * PAGE_SIZE)`. -/
theorem reservedOf_eq_spec {c : Cfg} {s : Nat}
    (hpow : ∃ e2, c.pageSize = 2 ^ e2) (hPle : c.pageSize ≤ 4294967296)
    (hP : 0 < c.pageSize) (hs : s + c.pageSize - 1 < 4294967296) :
    reservedOf c s = max c.pageSize ((s + c.pageSize - 1) / c.pageSize * c.pageSize) := by
  obtain ⟨e2, he2⟩ := hpow
  have he232 : e2 ≤ 32 := by
    have : (2 : Nat) ^ e2 ≤ 2 ^ 32 := by rw [← he2]; exact hPle
    exact (Nat.pow_le_pow_iff_right (by omega)).mp this
  unfold reservedOf
  by_cases hs0 : s > 0
  · rw [if_pos hs0]
    unfold round32
    rw [Nat.mod_eq_of_lt hs]
    have h1 : (4294967296 : Nat) = 2 ^ 32 := by norm_num
    rw [h1, he2, and_high_mask he232 (by rw [← h1, ← he2]; exact hs), ← he2]
    have hge : c.pageSize ≤ (s + c.pageSize - 1) / c.pageSize * c.pageSize := by
      have h2 : 1 ≤ (s + c.pageSize - 1) / c.pageSize :=
        (Nat.le_div_iff_mul_le hP).mpr (by omega)
      calc c.pageSize = 1 * c.pageSize := (one_mul _).symm
        _ ≤ (s + c.pageSize - 1) / c.pageSize * c.pageSize :=
          Nat.mul_le_mul_right _ h2
    rw [Nat.max_eq_right hge]
  · rw [if_neg hs0]
    have hs0' : s = 0 := by omega
    subst hs0'
    rw [show 0 + c.pageSize - 1 = c.pageSize - 1 by omega,
      Nat.div_eq_of_lt (by omega), Nat.zero_mul, Nat.max_eq_left (Nat.zero_le _)]

/-! ## Claim C2 -/

/-- C2 counterexample: the claim quantifies over every requested size,
but `ROUND` is computed in 32-bit `size_t` arithmetic.  For
`size = 2^32 - 1` on an empty one-page mount, the claimed reserved
size is `2^32` bytes (`2^26` pages for this configuration), far more
than the 1 free page, so the claim requires `ENOSPACE`; the code's
`ROUND` wraps to 0, `reserved_pages = 0 < free_pages`, and the file is
created. -/
theorem c2_newFile_overflow_not_enospace :
    (newFile cfgS flashEmpty PBuf.init mpEmpty [47, 97] 4294967295 0).1 = some 64 ∧
    max cfgS.pageSize
        ((4294967295 + cfgS.pageSize - 1) / cfgS.pageSize * cfgS.pageSize) /
      cfgS.pageSize = 67108864 ∧
    freePagesR cfgS flashEmpty mpEmpty = .ok 1 ∧ ((1 : Int) < 67108864) := by
  refine ⟨by decide, by decide, rfl, by decide⟩

/-- C2 amended: for every valid mount state (`tail_next` and
`free_pages` succeed), valid path, `exec ∈ {0,1}` and requested size
`s` such that the 32-bit addition `s + PAGE_SIZE - 1` of `ROUND` does
not wrap, `xipfs_fs_new_file` reserves
`R = max(PAGE_SIZE, ceil(s / PAGE_SIZE) * PAGE_SIZE)` bytes at the
`tail_next` position `w`, storing `R` in the new record's `reserved`
field; the record's `next` field is `w + R` when `R / PAGE_SIZE` is
below the free-page count, the record itself (self-loop) when the two
are equal, and when `R / PAGE_SIZE` exceeds the free pages it fails
with `ENOSPACE` leaving the NVM contents unchanged. -/
theorem c2_newFile_behavior (c : Cfg) (F : Flash) (b : PBuf) (mp : Mp) (path : List Nat)
    (s exec w : Nat) (fp : Int)
    (hpow : ∃ e2, c.pageSize = 2 ^ e2) (hPle : c.pageSize ≤ 4294967296)
    (hP : 0 < c.pageSize) (hhdr : c.hdrSize ≤ c.pageSize)
    (hs : s + c.pageSize - 1 < 4294967296)
    (hpath : pathCheckStr c path = true)
    (hexec : exec = 0 ∨ exec = 1)
    (htn : tailNextR c F mp = .ok w)
    (hfp : freePagesR c F mp = .ok fp) (hfp0 : 0 ≤ fp)
    (hw : w % c.pageSize = 0)
    (hclean : b.ok = false)
    (hF : ∀ x, F x < 256)
    (hsmall : w + max c.pageSize ((s + c.pageSize - 1) / c.pageSize * c.pageSize) <
      4294967296) :
    ((max c.pageSize ((s + c.pageSize - 1) / c.pageSize * c.pageSize) / c.pageSize : Int)
        < fp →
      ∃ F' b', newFile c F b mp path s exec = (some w, F', b') ∧
        readWord F' w =
          w + max c.pageSize ((s + c.pageSize - 1) / c.pageSize * c.pageSize) ∧
        readWord F' (w + c.resOff) =
          max c.pageSize ((s + c.pageSize - 1) / c.pageSize * c.pageSize)) ∧
    ((max c.pageSize ((s + c.pageSize - 1) / c.pageSize * c.pageSize) / c.pageSize : Int)
        = fp →
      ∃ F' b', newFile c F b mp path s exec = (some w, F', b') ∧
        readWord F' w = w ∧
        readWord F' (w + c.resOff) =
          max c.pageSize ((s + c.pageSize - 1) / c.pageSize * c.pageSize)) ∧
    (fp <
        (max c.pageSize ((s + c.pageSize - 1) / c.pageSize * c.pageSize) / c.pageSize : Int) →
      newFile c F b mp path s exec = (none, F, b)) := by
  have hRs := reservedOf_eq_spec (c := c) (s := s) hpow hPle hP hs
  set R := max c.pageSize ((s + c.pageSize - 1) / c.pageSize * c.pageSize) with hRdef
  have hhd : c.hdrSize = 12 + c.pathMax + 4 * c.slotMax := rfl
  have hro : c.resOff = 4 + c.pathMax := rfl
  have hplen := pathCheckStr_length hpath
  have hunf : newFile c F b mp path s exec =
      (if (R / c.pageSize : Int) < fp ∨ (R / c.pageSize : Int) = fp then
        match pbufWrite c F b w
            (headerBytes c (if (R / c.pageSize : Int) < fp then w + R else w) R exec path) with
        | some (F1, b1) =>
          match pbufFlush c F1 b1 with
          | some (F2, b2) => (some w, F2, b2)
          | none => (none, F, b)
        | none => (none, F, b)
      else (none, F, b)) := by
    unfold newFile
    rw [hpath]
    simp only [Bool.not_true, Bool.false_eq_true, if_false, htn, hfp, hRs]
    rw [if_neg (by rcases hexec with h | h <;> simp [h]), if_neg (not_lt.mpr hfp0)]
  have hmain : ∀ nxt : Nat, nxt < 4294967296 →
      ∃ F' b'',
        (match pbufWrite c F b w (headerBytes c nxt R exec path) with
         | some (F1, b1) =>
           match pbufFlush c F1 b1 with
           | some (F2, b2) => ((some w : Option Nat), F2, b2)
           | none => (none, F, b)
         | none => (none, F, b)) = (some w, F', b'') ∧
        readWord F' w = nxt ∧ readWord F' (w + c.resOff) = R := by
    intro nxt hnxt
    have hlenH : (headerBytes c nxt R exec path).length = c.hdrSize :=
      headerBytes_length hplen
    have hneH : headerBytes c nxt R exec path ≠ [] := by
      intro h0
      rw [h0] at hlenH
      simp only [List.length_nil] at hlenH
      omega
    obtain ⟨bmid, F', b'', hwr, hfl, hchar⟩ :=
      pbufWriteFlush_aligned hclean hw hneH (by rw [hlenH]; exact hhdr) hF
        (headerBytes_mem_lt (pathCheckStr_mem_lt hpath))
    refine ⟨F', b'', by simp only [hwr, hfl], ?_, ?_⟩
    · have hj : ∀ j, j < 4 → F' (w + j) = leByte nxt j := by
        intro j hj4
        rw [hchar (w + j), if_pos (by rw [hlenH]; omega),
          show w + j - w = j by omega]
        exact headerBytes_getD_next hj4
      have h0 := hj 0 (by omega)
      rw [Nat.add_zero] at h0
      unfold readWord
      rw [h0, hj 1 (by omega), hj 2 (by omega), hj 3 (by omega), le32_combine]
      exact Nat.mod_eq_of_lt hnxt
    · have hj : ∀ j, j < 4 → F' (w + c.resOff + j) = leByte R j := by
        intro j hj4
        rw [hchar (w + c.resOff + j), if_pos (by rw [hlenH]; omega),
          show w + c.resOff + j - w = 4 + c.pathMax + j by omega]
        exact headerBytes_getD_res hplen hj4
      have h0 := hj 0 (by omega)
      rw [Nat.add_zero] at h0
      unfold readWord
      rw [h0, hj 1 (by omega), hj 2 (by omega), hj 3 (by omega), le32_combine]
      exact Nat.mod_eq_of_lt (by omega)
  refine ⟨fun hlt => ?_, fun heq => ?_, fun hgt => ?_⟩
  · obtain ⟨F', b'', hres, hrw, hrr⟩ := hmain (w + R) (by omega)
    refine ⟨F', b'', ?_, hrw, hrr⟩
    rw [hunf, if_pos (Or.inl hlt), if_pos hlt]
    exact hres
  · obtain ⟨F', b'', hres, hrw, hrr⟩ := hmain w (by omega)
    refine ⟨F', b'', ?_, hrw, hrr⟩
    rw [hunf, if_pos (Or.inr heq), if_neg (by omega)]
    exact hres
  · rw [hunf, if_neg (by omega)]

/-- Witness for C2 on an empty one-page file system: requesting 0
bytes reserves exactly the single free page and produces the self-loop
terminal record. -/
theorem c2_newFile_behavior_witness :
    (pathCheckStr cfgS [47, 97] = true ∧
     tailNextR cfgS flashEmpty mpEmpty = .ok 64 ∧
     freePagesR cfgS flashEmpty mpEmpty = .ok 1) ∧
    (((max cfgS.pageSize
          ((0 + cfgS.pageSize - 1) / cfgS.pageSize * cfgS.pageSize) / cfgS.pageSize : Int)
        < 1 →
      ∃ F' b', newFile cfgS flashEmpty PBuf.init mpEmpty [47, 97] 0 0 = (some 64, F', b') ∧
        readWord F' 64 =
          64 + max cfgS.pageSize ((0 + cfgS.pageSize - 1) / cfgS.pageSize * cfgS.pageSize) ∧
        readWord F' (64 + cfgS.resOff) =
          max cfgS.pageSize ((0 + cfgS.pageSize - 1) / cfgS.pageSize * cfgS.pageSize)) ∧
    ((max cfgS.pageSize
          ((0 + cfgS.pageSize - 1) / cfgS.pageSize * cfgS.pageSize) / cfgS.pageSize : Int)
        = 1 →
      ∃ F' b', newFile cfgS flashEmpty PBuf.init mpEmpty [47, 97] 0 0 = (some 64, F', b') ∧
        readWord F' 64 = 64 ∧
        readWord F' (64 + cfgS.resOff) =
          max cfgS.pageSize ((0 + cfgS.pageSize - 1) / cfgS.pageSize * cfgS.pageSize)) ∧
    ((1 : Int) <
        (max cfgS.pageSize
          ((0 + cfgS.pageSize - 1) / cfgS.pageSize * cfgS.pageSize) / cfgS.pageSize : Int) →
      newFile cfgS flashEmpty PBuf.init mpEmpty [47, 97] 0 0 = (none, flashEmpty, PBuf.init))) :=
  ⟨⟨by decide, rfl, rfl⟩,
    c2_newFile_behavior cfgS flashEmpty PBuf.init mpEmpty [47, 97] 0 0 64 1
      ⟨6, rfl⟩ (by decide) (by decide) (by decide) (by decide) (by decide)
      (Or.inl rfl) rfl rfl (by decide) rfl rfl
      (fun x => by show (255 : Nat) < 256; decide) (by decide)⟩

/-! ## Claim C3 -/

/-- C3: the claim `set_size(f, S); get_size(f) = S for every valid
file f` fails on the code.  On the valid file of `flashC3`, whose size
slots hold the history `10, 20, 30`, `xipfs_file_set_size` breaks its
scan at the first slot (index ≥ 1) that is NOT in the erase state —
the test is inverted with respect to the append-only design — so
`set_size(f, 99)` overwrites slot 1 and `get_size(f)` then returns the
value 30 of slot 2, not 99. -/
theorem c3_setSize_getSize_not_roundtrip :
    (fileSetSize cfgS flashC3 PBuf.init 64 99).bind
        (fun s => (fileGetSize cfgS s.1 s.2 64).map (fun r => r.1)) = some 30 ∧
    filpCheck cfgS flashC3 64 = true ∧ some (30 : Nat) ≠ some 99 := by
  refine ⟨by decide, by decide, by decide⟩

/-! ## Claim C4 -/

/-- C4: the claim that `set_size` writes into the first erase-state
slot (the slot following the last recorded size) fails on the code.
On the valid file of `flashC4`, whose slot 0 holds 5 and whose slots
1..3 are erased, the first erase-state slot after the recorded size is
slot 1, but the scan of `xipfs_file_set_size` breaks only at a
non-erased slot, runs to `slotMax`, wraps to slot 0, and the write
lands in slot 0 (the flushed flash holds 7 at slot 0 and slot 1 is
still erased). -/
theorem c4_setSize_writes_wrong_slot :
    setSizeIdx cfgS flashC4 64 = 0 ∧ (0 : Nat) ≠ 1 ∧
    (fileSetSize cfgS flashC4 PBuf.init 64 7).map
        (fun s => (readWord s.1 76, readWord s.1 80)) = some (7, eraseWord) := by
  refine ⟨by decide, by decide, by decide⟩

/-! ## Claim C5 -/

/-- C5: the claim that mount succeeds on every layout-invariant state,
in particular on a full file system whose terminal record is a
self-loop, fails on the code.  `flashC3`/`mpFull` is a completely full
valid file system (a single self-loop record filling the whole
one-page mount; the set of pages past the tail is empty, hence
vacuously erased), yet `xipfs_mount0` returns `-EIO`: the
`xipfs_fs_tail_next` call used to find the erased-region scan start
reports `XIPFS_EFULL` for a self-loop tail, and `xipfs_mount0` turns
every non-OK `xipfs_errno` into `-EIO`. -/
theorem c5_mount_full_fs_EIO :
    mount0 cfgS flashC3 mpFull = .error EIO ∧
    filpCheck cfgS flashC3 64 = true ∧
    readWord flashC3 64 = 64 ∧
    readWord flashC3 (64 + cfgS.resOff) = 64 ∧
    mpFull.base + mpFull.nbpage * cfgS.pageSize = 128 := by
  exact ⟨rfl, by decide, by decide, by decide, by decide⟩

/-! ## Claim C7 -/

/-- C7 counterexample: the claim that `overflow(addr, n)` is false for
a half-open range ending exactly at the NVM end address fails on the
code.  With `flashEnd cfgS = 128`, the one-byte range `[127, 128)`
stays inside the NVM, yet `xipfs_flash_overflow` tests
`!xipfs_flash_in(addr + n)` and `128` is not in `[0, 128)`, so it
returns true. -/
theorem c7_overflow_true_at_end_boundary :
    flashOverflow cfgS 127 1 = true ∧ 127 + 1 ≤ flashEnd cfgS := by
  exact ⟨rfl, by decide⟩

/-- C7 amended: `overflow(addr, n)` returns true iff the end boundary
`addr + n` of the half-open range `[addr, addr + n)` lies at or beyond
the NVM end address; in particular it returns true (not false) for a
range ending exactly at the end address. -/
theorem c7_overflow_iff_end_reached (c : Cfg) (a n : Nat) :
    flashOverflow c a n = true ↔ flashEnd c ≤ a + n := by
  simp [flashOverflow, flashIn, Nat.not_lt]

/-! ## Claim C10 -/

/-- C10: the claim that the format-time and removal-time table walks
read `private_data` only from non-NULL slots fails on the code.  On a
table with one tracked file and one empty (NULL) slot — the normal
state when fewer than `VFS_MAX_OPEN_FILES` files are open — both
`vfs_open_files_untrack_all` and `vfs_open_files_update` evaluate
`vfs_open_files[i]->private_data.ptr` for every `i` without a NULL
check, dereferencing the NULL slot (modelled as `none`). -/
theorem c10_table_walks_deref_null_slot :
    vfsUntrackAll cfgS mpFull [some ⟨.fileAt 64⟩, none] = none ∧
    vfsUpdate cfgS mpFull 64 64 [some ⟨.fileAt 64⟩, none] = none ∧
    untrackAllStep cfgS mpFull none = none ∧
    updateStep cfgS mpFull 64 64 none = none := by
  exact ⟨rfl, rfl, rfl, rfl⟩

/-! ## Claim C9 -/

/-- The live part of `xipfs_file_filp_check` for a record that is not
a self-loop: its `next` is page-aligned, inside the flash, and
strictly above the record. -/
theorem filpCheck_next_facts {c : Cfg} {F : Flash} {a : Nat}
    (h : filpCheck c F a = true) (hne : readWord F a ≠ a) :
    a < readWord F a ∧ readWord F a < flashEnd c ∧ readWord F a % c.pageSize = 0 := by
  unfold filpCheck at h
  rw [if_pos hne] at h
  simp only [Bool.and_eq_true, pageAligned, flashIn, decide_eq_true_eq, beq_iff_eq,
    bne_iff_ne] at h
  tauto

/-- A successful `xipfs_fs_next` step lands strictly above its
argument, below the flash end, and on a page boundary. -/
theorem fsNextR_some {c : Cfg} {F : Flash} {a a' : Nat}
    (h : fsNextR c F a = .ok (some a')) :
    a < a' ∧ a' < flashEnd c ∧ a' % c.pageSize = 0 := by
  unfold fsNextR at h
  split at h
  · simp at h
  next hck =>
    split at h
    · simp at h
    next hself =>
      split at h
      · simp at h
      · split at h
        · obtain rfl : readWord F a = a' := by simpa using h
          have hck' : filpCheck c F a = true := by
            revert hck; simp
          exact filpCheck_next_facts hck' (by simpa using hself)
        · simp at h

/-- Fuel irrelevance for the `xipfs_fs_tail` loop: any two fuels above
`flashPages - a / pageSize` give the same result, because each
successful step moves to a strictly higher page inside the flash. -/
theorem fsTailLoop_fuel_ge {c : Cfg} {F : Flash} (hP : 0 < c.pageSize) :
    ∀ k a n m, c.flashPages - a / c.pageSize ≤ k → k < n → k < m →
      fsTailLoop c F a n = fsTailLoop c F a m := by
  intro k
  induction k with
  | zero =>
    intro a n m hk hn hm
    obtain ⟨n', rfl⟩ : ∃ n', n = n' + 1 := ⟨n - 1, by omega⟩
    obtain ⟨m', rfl⟩ : ∃ m', m = m' + 1 := ⟨m - 1, by omega⟩
    simp only [fsTailLoop]
    cases hnx : fsNextR c F a with
    | error e => rfl
    | ok o =>
      cases o with
      | none => rfl
      | some a' =>
        exfalso
        obtain ⟨hlt, hend, _⟩ := fsNextR_some hnx
        have hge : flashEnd c ≤ a :=
          calc flashEnd c = c.flashPages * c.pageSize := rfl
            _ ≤ a / c.pageSize * c.pageSize := Nat.mul_le_mul_right _ (by omega)
            _ ≤ a := Nat.div_mul_le_self a c.pageSize
        omega
  | succ k ih =>
    intro a n m hk hn hm
    obtain ⟨n', rfl⟩ : ∃ n', n = n' + 1 := ⟨n - 1, by omega⟩
    obtain ⟨m', rfl⟩ : ∃ m', m = m' + 1 := ⟨m - 1, by omega⟩
    simp only [fsTailLoop]
    cases hnx : fsNextR c F a with
    | error e => rfl
    | ok o =>
      cases o with
      | none => rfl
      | some a' =>
        obtain ⟨hlt, hend, hal⟩ := fsNextR_some hnx
        have h1 : a / c.pageSize < a' / c.pageSize := by
          have ha' : a' / c.pageSize * c.pageSize = a' :=
            Nat.div_mul_cancel (Nat.dvd_of_mod_eq_zero hal)
          rw [Nat.div_lt_iff_lt_mul hP]
          calc a < a' := hlt
            _ = a' / c.pageSize * c.pageSize := ha'.symm
        exact ih a' n' m' (by omega) (by omega) (by omega)

/-- C9: the tail traversal terminates.  `xipfs_fs_next` either returns
NULL or a record at a strictly greater, in-flash address (because the
live checks of `xipfs_file_filp_check` reject a non-self-loop `next`
that is not strictly greater or not inside the flash); consequently
the `xipfs_fs_tail` loop is insensitive to any fuel of at least
`flashPages + 2` steps — it never runs out of list. -/
theorem c9_fsNext_monotone_tail_terminates (c : Cfg) (F : Flash) (hP : 0 < c.pageSize) :
    (∀ a a', fsNextR c F a = .ok (some a') → a < a' ∧ a' < flashEnd c) ∧
    (∀ a fuel, tailFuel c ≤ fuel →
      fsTailLoop c F a fuel = fsTailLoop c F a (tailFuel c)) := by
  refine ⟨fun a a' h => ⟨(fsNextR_some h).1, (fsNextR_some h).2.1⟩, fun a fuel hf => ?_⟩
  have ht : tailFuel c = c.flashPages + 2 := rfl
  rw [ht] at hf
  exact fsTailLoop_fuel_ge hP (c.flashPages + 1) a fuel (tailFuel c)
    (Nat.le_succ_of_le (Nat.sub_le _ _)) (by omega) (by rw [ht]; omega)

/-- Witness for C9 at the concrete configuration `cfgS` and flash
`flashC3`. -/
theorem c9_fsNext_monotone_tail_terminates_witness :
    0 < cfgS.pageSize ∧
    ((∀ a a', fsNextR cfgS flashC3 a = .ok (some a') → a < a' ∧ a' < flashEnd cfgS) ∧
     (∀ a fuel, tailFuel cfgS ≤ fuel →
       fsTailLoop cfgS flashC3 a fuel = fsTailLoop cfgS flashC3 a (tailFuel cfgS))) :=
  ⟨by decide, c9_fsNext_monotone_tail_terminates cfgS flashC3 (by decide)⟩

/-! ## Claim C8 -/

/-- Staging an address into a clean page buffer leaves the flash
untouched: either the buffer was empty or on another page and the
address's page is loaded, or it already held that page. -/
theorem pbufStage_clean {c : Cfg} {F : Flash} {b : PBuf} {ptr : Nat}
    (h : pbufNeedFlush c F b = false) :
    pbufStage c F b ptr = some (F, pbufLoad c F (pageOf c ptr)) ∨
    (pbufStage c F b ptr = some (F, b) ∧ b.ok = true ∧ b.pageNum = pageOf c ptr) := by
  have hfl : pbufFlush c F b = some (F, b) := by
    unfold pbufFlush
    rw [if_neg (by simp [h])]
  unfold pbufStage
  by_cases h1 : b.ok = false
  · left; rw [if_pos h1]
  · by_cases h2 : b.pageNum ≠ pageOf c ptr
    · left
      rw [if_neg h1, if_pos h2, hfl]
    · right
      refine ⟨?_, by simpa using h1, by simpa using h2⟩
      rw [if_neg h1, if_neg h2]

/-- Writing one byte through a clean page buffer: the flash is
unchanged and the buffer holds the byte's page with the byte
updated. -/
theorem pbufWrite8_clean {c : Cfg} {F : Flash} {b : PBuf} {ptr v : Nat}
    (h : pbufNeedFlush c F b = false) :
    ∃ b', pbufWrite8 c F b ptr v = some (F, b') ∧ b'.ok = true ∧
      b'.pageNum = pageOf c ptr ∧ b'.data (ptr % c.pageSize) = v := by
  rcases @pbufStage_clean c F b ptr h with hst | ⟨hst, hok, hpg⟩
  · refine ⟨⟨true, fupd (pbufLoad c F (pageOf c ptr)).data (ptr % c.pageSize) v,
      pageOf c ptr⟩, ?_, rfl, rfl, fupd_same _ _ _⟩
    unfold pbufWrite8 pbufWrite
    rw [hst]
    rfl
  · refine ⟨⟨b.ok, fupd b.data (ptr % c.pageSize) v, b.pageNum⟩, ?_, by simpa using hok,
      by simpa using hpg, fupd_same _ _ _⟩
    unfold pbufWrite8 pbufWrite
    rw [hst]
    rfl

/-- Reading one byte through a buffer already holding the byte's page
returns the buffer byte and changes nothing. -/
theorem pbufRead8_loaded {c : Cfg} {F : Flash} {b : PBuf} {ptr : Nat}
    (hok : b.ok = true) (hpg : b.pageNum = pageOf c ptr) :
    pbufRead8 c F b ptr = some (b.data (ptr % c.pageSize), F, b) := by
  unfold pbufRead8 pbufRead pbufStage
  simp [hok, hpg, pbufRead]

/-- C8: for a valid file and a position strictly below `max_pos`, with
the page buffer clean, `xipfs_file_write_8` of a byte followed by
`xipfs_file_read_8` at the same position returns that byte, the flash
untouched in between (so the containing page is trivially not
re-erased between the two operations). -/
theorem c8_write8_read8_roundtrip (c : Cfg) (F : Flash) (b : PBuf) (a pos v : Nat)
    (hck : filpCheck c F a = true)
    (hclean : pbufNeedFlush c F b = false)
    (hpos : (pos : Int) < (readWord F (a + c.resOff) : Int) - (c.hdrSize : Int)) :
    ∃ b', fileWrite8 c F b a pos v = some (F, b') ∧
      (fileRead8 c F b' a pos).map (fun r => r.1) = some v := by
  have hmp : fileMaxPos c F a =
      some ((readWord F (a + c.resOff) : Int) - (c.hdrSize : Int)) := by
    unfold fileMaxPos; rw [if_pos hck]
  obtain ⟨b', hw, hok, hpg, hv⟩ :=
    @pbufWrite8_clean c F b (a + c.hdrSize + pos) v hclean
  have hnneg : ¬((readWord F (a + c.resOff) : Int) - (c.hdrSize : Int) < 0) := by
    have : (0 : Int) ≤ (pos : Int) := Int.natCast_nonneg pos
    omega
  have hbound : ¬((pos : Int) < 0 ∨
      (pos : Int) > (readWord F (a + c.resOff) : Int) - (c.hdrSize : Int)) := by
    have : (0 : Int) ≤ (pos : Int) := Int.natCast_nonneg pos
    omega
  have htn : ((pos : Int)).toNat = pos := Int.toNat_natCast pos
  refine ⟨b', ?_, ?_⟩
  · unfold fileWrite8
    rw [if_pos hck, hmp]
    simp only [hnneg, if_false, hbound, ite_false, htn]
    exact hw
  · unfold fileRead8
    rw [if_pos hck, hmp]
    simp only [hnneg, if_false, hbound, ite_false, htn]
    rw [pbufRead8_loaded hok hpg]
    simp [hv]

/-- Witness for C8: write the byte 65 at position 0 of the file of
`flashC3` and read it back. -/
theorem c8_write8_read8_roundtrip_witness :
    (filpCheck cfgS flashC3 64 = true ∧
      pbufNeedFlush cfgS flashC3 PBuf.init = false ∧
      ((0 : Nat) : Int) < (readWord flashC3 (64 + cfgS.resOff) : Int) - (cfgS.hdrSize : Int)) ∧
    (∃ b', fileWrite8 cfgS flashC3 PBuf.init 64 0 65 = some (flashC3, b') ∧
      (fileRead8 cfgS flashC3 b' 64 0).map (fun r => r.1) = some 65) :=
  ⟨⟨by decide, by decide, by decide⟩,
    c8_write8_read8_roundtrip cfgS flashC3 PBuf.init 64 0 65 (by decide) (by decide)
      (by decide)⟩

/-! ## Claim C6 -/

theorem charAt_lt {p : List Nat} {i : Nat} (h : i < p.length) : charAt p i = p[i] := by
  unfold charAt
  rw [List.getD_eq_getElem?_getD, List.getElem?_eq_getElem h]
  rfl

theorem charAt_ge {p : List Nat} {i : Nat} (h : p.length ≤ i) : charAt p i = 0 := by
  unfold charAt
  rw [List.getD_eq_getElem?_getD, List.getElem?_eq_none h]
  rfl

theorem charAt_ne_zero {p : List Nat} (h0 : 0 ∉ p) {i : Nat} (h : i < p.length) :
    charAt p i ≠ 0 := by
  intro hz
  rw [charAt_lt h] at hz
  exact h0 (hz ▸ List.getElem_mem h)

theorem charAt_zero_iff {p : List Nat} (h0 : 0 ∉ p) {i : Nat} :
    charAt p i = 0 ↔ p.length ≤ i := by
  constructor
  · intro h
    by_contra hlt
    push_neg at hlt
    exact charAt_ne_zero h0 hlt h
  · exact charAt_ge

theorem listEq_of_charAt {q p : List Nat} (hl : q.length = p.length)
    (h : ∀ k, k < p.length → charAt q k = charAt p k) : q = p := by
  apply List.ext_getElem hl
  intro k hk1 hk2
  have := h k hk2
  rwa [charAt_lt hk1, charAt_lt hk2] at this

theorem take_eq_of_charAt {q p : List Nat} (hl : p.length ≤ q.length)
    (h : ∀ k, k < p.length → charAt q k = charAt p k) : q.take p.length = p := by
  apply List.ext_getElem
  · rw [List.length_take]
    omega
  · intro k hk1 hk2
    rw [List.getElem_take]
    have := h k hk2
    rwa [charAt_lt (by omega), charAt_lt hk2] at this

/-- The specification of the `compare_paths` loop: the characters
before the returned index match and are not terminators, and the loop
stops only at fuel exhaustion, a difference, or a terminator. -/
theorem comparePathsAux_spec (p1 p2 : List Nat) :
    ∀ fuel i,
      (∀ k, i ≤ k → k < comparePathsAux p1 p2 i fuel →
        charAt p1 k = charAt p2 k ∧ charAt p1 k ≠ 0) ∧
      i ≤ comparePathsAux p1 p2 i fuel ∧
      comparePathsAux p1 p2 i fuel ≤ i + fuel ∧
      (comparePathsAux p1 p2 i fuel = i + fuel ∨
        charAt p1 (comparePathsAux p1 p2 i fuel) ≠ charAt p2 (comparePathsAux p1 p2 i fuel) ∨
        charAt p1 (comparePathsAux p1 p2 i fuel) = 0 ∨
        charAt p2 (comparePathsAux p1 p2 i fuel) = 0) := by
  intro fuel
  induction fuel with
  | zero =>
    intro i
    have h0 : comparePathsAux p1 p2 i 0 = i := rfl
    exact ⟨fun k hk1 hk2 => by omega, by omega, by omega, Or.inl (by omega)⟩
  | succ f ih =>
    intro i
    have hshow : comparePathsAux p1 p2 i (f + 1) =
        (if charAt p1 i ≠ charAt p2 i then i
         else if charAt p1 i = 0 then i
         else if charAt p2 i = 0 then i
         else comparePathsAux p1 p2 (i + 1) f) := rfl
    by_cases h1 : charAt p1 i ≠ charAt p2 i
    · have hr : comparePathsAux p1 p2 i (f + 1) = i := by
        rw [hshow, if_pos h1]
      rw [hr]
      exact ⟨fun k hk1 hk2 => by omega, le_refl _, by omega, Or.inr (Or.inl h1)⟩
    · push_neg at h1
      by_cases h2 : charAt p1 i = 0
      · have hr : comparePathsAux p1 p2 i (f + 1) = i := by
          rw [hshow, if_neg (by simpa using h1), if_pos h2]
        rw [hr]
        exact ⟨fun k hk1 hk2 => by omega, le_refl _, by omega, Or.inr (Or.inr (Or.inl h2))⟩
      · by_cases h3 : charAt p2 i = 0
        · have hr : comparePathsAux p1 p2 i (f + 1) = i := by
            rw [hshow, if_neg (by simpa using h1), if_neg h2, if_pos h3]
          rw [hr]
          exact ⟨fun k hk1 hk2 => by omega, le_refl _, by omega,
            Or.inr (Or.inr (Or.inr h3))⟩
        · have hr : comparePathsAux p1 p2 i (f + 1) = comparePathsAux p1 p2 (i + 1) f := by
            rw [hshow, if_neg (by simpa using h1), if_neg h2, if_neg h3]
          obtain ⟨hinv, hlo, hhi, hstop⟩ := ih (i + 1)
          rw [hr]
          refine ⟨fun k hk1 hk2 => ?_, by omega, by omega, ?_⟩
          · rcases Nat.eq_or_lt_of_le hk1 with rfl | hk1'
            · exact ⟨h1, h2⟩
            · exact hinv k (by omega) hk2
          · rcases hstop with h | h
            · exact Or.inl (by omega)
            · exact Or.inr h

theorem comparePaths_le {pm : Nat} {q p : List Nat} (h0p : 0 ∉ p) :
    comparePaths pm q p ≤ p.length := by
  obtain ⟨hinv, hlo, hhi, hstop⟩ := comparePathsAux_spec q p pm 0
  by_contra hgt
  push_neg at hgt
  unfold comparePaths at hgt
  have h1 := (hinv p.length (by omega) hgt).1
  have h2 := (hinv p.length (by omega) hgt).2
  rw [charAt_ge (le_refl _)] at h1
  exact h2 h1

theorem comparePaths_self {pm : Nat} {p : List Nat} (h0p : 0 ∉ p)
    (hpm : p.length < pm) : comparePaths pm p p = p.length := by
  obtain ⟨hinv, hlo, hhi, hstop⟩ := comparePathsAux_spec p p pm 0
  have hle : comparePaths pm p p ≤ p.length := comparePaths_le h0p
  unfold comparePaths at *
  rcases Nat.lt_or_ge (comparePathsAux p p 0 pm) p.length with hlt | hge
  · exfalso
    rcases hstop with h | h | h | h
    · omega
    · exact h rfl
    · exact charAt_ne_zero h0p hlt h
    · exact charAt_ne_zero h0p hlt h
  · omega

/-- If `exists_as_file` accepts a stored path against the query at the
`compare_paths` index, the stored path is bytewise the query and the
query does not end in a slash. -/
theorem existsAsFile_sound {pm : Nat} {q p : List Nat} (h0p : 0 ∉ p) (h0q : 0 ∉ q)
    (h : existsAsFile q p (comparePaths pm q p) = true) :
    q = p ∧ endsSlash p = false := by
  obtain ⟨hinv, hlo, hhi, hstop⟩ := comparePathsAux_spec q p pm 0
  have hle := @comparePaths_le pm q _ h0p
  unfold comparePaths at *
  set i := comparePathsAux q p 0 pm
  unfold existsAsFile at h
  simp only [Bool.and_eq_true, decide_eq_true_eq, bne_iff_ne, beq_iff_eq, ne_eq] at h
  obtain ⟨⟨⟨⟨⟨⟨hlt0, hqa⟩, hqb⟩, hq0⟩, hpa⟩, hpb⟩, hp0⟩ := h
  have hip : i = p.length := le_antisymm hle ((charAt_zero_iff h0p).mp hp0)
  have hiq : i = q.length := by
    have hup : q.length ≤ i := (charAt_zero_iff h0q).mp hq0
    have hlow : i ≤ q.length := by
      by_contra hgt
      push_neg at hgt
      exact (hinv q.length (by omega) (by omega)).2 (charAt_ge (le_refl _))
    omega
  refine ⟨listEq_of_charAt (by omega) (fun k hk => (hinv k (by omega) (by omega)).1), ?_⟩
  unfold endsSlash
  rw [beq_eq_false_iff_ne, show p.length - 1 = i - 1 by omega]
  exact hpa

/-- On a query that does not end in a slash, `exists_as_file` accepts
a stored path equal to the query. -/
theorem existsAsFile_complete {pm : Nat} {p : List Nat} (h0p : 0 ∉ p)
    (hne : p ≠ []) (hpm : p.length < pm) (hends : endsSlash p = false) :
    existsAsFile p p (comparePaths pm p p) = true := by
  rw [comparePaths_self h0p hpm]
  have hlen0 : 0 < p.length := List.length_pos.mpr hne
  have hlast : charAt p (p.length - 1) ≠ 47 := by
    unfold endsSlash at hends
    rwa [beq_eq_false_iff_ne] at hends
  have hlastne : charAt p (p.length - 1) ≠ 0 := charAt_ne_zero h0p (by omega)
  have hz : charAt p p.length = 0 := charAt_ge (le_refl _)
  unfold existsAsFile
  simp [hlen0, hlast, hlastne, hz]

/-- If `exists_as_empty_dir` accepts a stored path against the query,
either the stored path is the query itself ending in a slash, or it
strictly extends the query at a component boundary. -/
theorem emptyDir_sound {pm : Nat} {q p : List Nat} (h0p : 0 ∉ p) (h0q : 0 ∉ q)
    (h : existsAsEmptyDir pm q p (comparePaths pm q p) = true) :
    (q = p ∧ endsSlash p = true) ∨ strictExt q p = true := by
  obtain ⟨hinv, hlo, hhi, hstop⟩ := comparePathsAux_spec q p pm 0
  have hle := @comparePaths_le pm q _ h0p
  unfold comparePaths at *
  set i := comparePathsAux q p 0 pm
  unfold existsAsEmptyDir at h
  simp only [Bool.or_eq_true, Bool.and_eq_true, decide_eq_true_eq, bne_iff_ne,
    beq_iff_eq, ne_eq] at h
  rcases h with ⟨⟨⟨⟨hlt0, hqa⟩, hq0⟩, hpa⟩, hp0⟩ |
    ⟨⟨⟨⟨⟨⟨⟨⟨hlt0, hipm⟩, hqa⟩, hqb⟩, hq47⟩, hq10⟩, hpa⟩, hpb⟩, hp0⟩
  · left
    have hip : i = p.length := le_antisymm hle ((charAt_zero_iff h0p).mp hp0)
    have hiq : i = q.length := by
      have hup : q.length ≤ i := (charAt_zero_iff h0q).mp hq0
      have hlow : i ≤ q.length := by
        by_contra hgt
        push_neg at hgt
        exact (hinv q.length (by omega) (by omega)).2 (charAt_ge (le_refl _))
      omega
    refine ⟨listEq_of_charAt (by omega) (fun k hk => (hinv k (by omega) (by omega)).1), ?_⟩
    unfold endsSlash
    rw [beq_iff_eq, show p.length - 1 = i - 1 by omega]
    exact hpa
  · right
    have hip : i = p.length := le_antisymm hle ((charAt_zero_iff h0p).mp hp0)
    have hqgt : p.length < q.length := by
      by_contra hle2
      push_neg at hle2
      have := charAt_ge (show q.length ≤ i by omega)
      omega
    unfold strictExt
    simp only [Bool.and_eq_true, decide_eq_true_eq, beq_iff_eq]
    refine ⟨⟨hqgt, take_eq_of_charAt (by omega)
      (fun k hk => (hinv k (by omega) (by omega)).1)⟩, ?_⟩
    rw [← hip]
    exact hq47

/-- If `exists_as_nonempty_dir` accepts a stored path against the
query, either the query ends in a slash or the stored path strictly
extends it at a component boundary. -/
theorem nonemptyDir_sound {pm : Nat} {q p : List Nat} (h0p : 0 ∉ p) (h0q : 0 ∉ q)
    (h : existsAsNonemptyDir pm q p (comparePaths pm q p) = true) :
    endsSlash p = true ∨ strictExt q p = true := by
  obtain ⟨hinv, hlo, hhi, hstop⟩ := comparePathsAux_spec q p pm 0
  have hle := @comparePaths_le pm q _ h0p
  unfold comparePaths at *
  set i := comparePathsAux q p 0 pm
  unfold existsAsNonemptyDir at h
  simp only [Bool.or_eq_true, Bool.and_eq_true, decide_eq_true_eq, bne_iff_ne,
    beq_iff_eq, ne_eq] at h
  rcases h with ⟨⟨⟨⟨⟨hlt0, hqa⟩, hqb⟩, hqc⟩, hpa⟩, hp0⟩ |
    ⟨⟨⟨⟨⟨⟨⟨⟨⟨hlt0, hipm⟩, hqa⟩, hqb⟩, hq47⟩, hq1a⟩, hq1b⟩, hpa⟩, hpb⟩, hp0⟩
  · left
    have hip : i = p.length := le_antisymm hle ((charAt_zero_iff h0p).mp hp0)
    unfold endsSlash
    rw [beq_iff_eq, show p.length - 1 = i - 1 by omega]
    exact hpa
  · right
    have hip : i = p.length := le_antisymm hle ((charAt_zero_iff h0p).mp hp0)
    have hqgt : p.length < q.length := by
      by_contra hle2
      push_neg at hle2
      have := charAt_ge (show q.length ≤ i by omega)
      omega
    unfold strictExt
    simp only [Bool.and_eq_true, decide_eq_true_eq, beq_iff_eq]
    refine ⟨⟨hqgt, take_eq_of_charAt (by omega)
      (fun k hk => (hinv k (by omega) (by omega)).1)⟩, ?_⟩
    rw [← hip]
    exact hq47

/-- If `invalid_because_not_dirs` accepts a stored path against the
query, then a strict prefix of the query ending at a `/` boundary is a
stored file path. -/
theorem notDirs_sound {pm : Nat} {q p : List Nat} (h0p : 0 ∉ p) (h0q : 0 ∉ q)
    (h : invalidBecauseNotDirs pm q p (comparePaths pm q p) = true) :
    prefixBlock q p = true := by
  obtain ⟨hinv, hlo, hhi, hstop⟩ := comparePathsAux_spec q p pm 0
  have hle := @comparePaths_le pm q _ h0p
  unfold comparePaths at *
  set i := comparePathsAux q p 0 pm
  unfold invalidBecauseNotDirs at h
  simp only [Bool.and_eq_true, decide_eq_true_eq, bne_iff_ne, beq_iff_eq, ne_eq] at h
  obtain ⟨⟨⟨⟨⟨⟨⟨⟨⟨hlt0, hipm⟩, hqa⟩, hqb⟩, hq0⟩, hpa⟩, hpb⟩, hp47⟩, hp1a⟩, hp1b⟩ := h
  have hiq : i = q.length := by
    have hup : q.length ≤ i := (charAt_zero_iff h0q).mp hq0
    have hlow : i ≤ q.length := by
      by_contra hgt
      push_neg at hgt
      exact (hinv q.length (by omega) (by omega)).2 (charAt_ge (le_refl _))
    omega
  have hplt : i < p.length := by
    by_contra hge
    push_neg at hge
    have := charAt_ge (show p.length ≤ i by omega)
    omega
  unfold prefixBlock
  simp only [Bool.and_eq_true, decide_eq_true_eq, beq_iff_eq]
  refine ⟨⟨by omega, take_eq_of_charAt (q := p) (p := q) (by omega)
    (fun k hk => ((hinv k (by omega) (by omega)).1).symm)⟩, ?_⟩
  rw [← hiq]
  exact hp47

theorem classParent_fields (q : List Nat) (x : XiPath) :
    (classParent q x).path = x.path ∧ (classParent q x).len = x.len ∧
    (classParent q x).lastSlash = x.lastSlash ∧ (classParent q x).info = x.info ∧
    (classParent q x).witness = x.witness := by
  unfold classParent
  by_cases h : strncmpEq x.path q x.lastSlash <;> simp [h]

/-- A frozen query (`info` no longer `UNDEFINED` or `CREATABLE`) is
untouched by a record-loop step except for its parent count. -/
theorem classStep_frozen {pm : Nat} {q : List Nat} {idx : Nat} {x : XiPath}
    (h1 : x.info ≠ pUNDEFINED) (h2 : x.info ≠ pCREATABLE) :
    ∃ x', classStep pm q idx x = some x' ∧ x'.path = x.path ∧ x'.len = x.len ∧
      x'.lastSlash = x.lastSlash ∧ x'.info = x.info ∧ x'.witness = x.witness := by
  obtain ⟨hp1, hp2, hp3, hp4, hp5⟩ := classParent_fields q x
  refine ⟨classParent q x, ?_, hp1, hp2, hp3, hp4, hp5⟩
  unfold classStep classBody
  rw [if_neg (by rw [hp4]; tauto)]

/-- A live step against a conflict-free record, for a query not ending
in a slash: a record equal to the query classifies it as
`EXISTS_AS_FILE` with that record as witness; any other record leaves
it live, and nothing aborts or rewrites the query buffer. -/
theorem classStep_live {pm idx : Nat} {q p : List Nat} {x : XiPath}
    (h0p : 0 ∉ p) (h0q : 0 ∉ q) (hne : p ≠ []) (hplen : p.length < pm - 1)
    (hends : endsSlash p = false)
    (hcse : strictExt q p = false) (hcpb : prefixBlock q p = false)
    (hinfo : x.info = pUNDEFINED ∨ x.info = pCREATABLE)
    (hpath : x.path = p) (hlen : x.len = p.length) :
    ∃ x', classStep pm q idx x = some x' ∧ x'.path = p ∧ x'.len = p.length ∧
      x'.lastSlash = x.lastSlash ∧
      (q = p → x'.info = pFILE ∧ x'.witness = some idx) ∧
      (q ≠ p → x'.info = pUNDEFINED ∨ x'.info = pCREATABLE) := by
  obtain ⟨hp1, hp2, hp3, hp4, hp5⟩ := classParent_fields q x
  have hcmp : comparePaths pm q (classParent q x).path ≠ pm := by
    rw [hp1, hpath]
    have := @comparePaths_le pm q _ h0p
    omega
  unfold classStep classBody
  rw [if_pos (by rw [hp4]; exact hinfo), if_neg hcmp]
  rw [hp1, hpath]
  by_cases hqp : q = p
  · rw [if_pos (by rw [hqp]; exact existsAsFile_complete h0p hne (by omega) hends)]
    refine ⟨_, rfl, by simpa using (hp1.trans hpath), by simpa using (hp2.trans hlen),
      by simpa using hp3, fun _ => ⟨rfl, rfl⟩, fun h => absurd hqp h⟩
  · rw [if_neg ?hf, if_neg ?hed, if_neg ?hnd, if_neg ?hid]
    case hf =>
      intro hfi
      exact hqp (existsAsFile_sound h0p h0q hfi).1
    case hed =>
      intro hfi
      rcases emptyDir_sound h0p h0q hfi with ⟨heq, _⟩ | hse
      · exact hqp heq
      · rw [hcse] at hse; cases hse
    case hnd =>
      intro hfi
      rcases nonemptyDir_sound h0p h0q hfi with hsl | hse
      · rw [hends] at hsl; cases hsl
      · rw [hcse] at hse; cases hse
    case hid =>
      intro hfi
      have := notDirs_sound h0p h0q hfi
      rw [hcpb] at this; cases this
    by_cases hcr : creatableB q p ((classParent q x).lastSlash + 1) = true
    · rw [if_pos hcr]
      refine ⟨_, rfl, by simpa using (hp1.trans hpath), by simpa using (hp2.trans hlen),
        by simpa using hp3, fun h => absurd h hqp, fun _ => Or.inr rfl⟩
    · rw [if_neg hcr]
      refine ⟨_, rfl, hp1.trans hpath, hp2.trans hlen, hp3,
        fun h => absurd h hqp, fun _ => by rw [hp4]; exact hinfo⟩

/-- A live step for a query that ends in a slash never classifies it
as `EXISTS_AS_FILE`, never aborts, and never rewrites the query
buffer. -/
theorem classStep_live_slash {pm idx : Nat} {q p : List Nat} {x : XiPath}
    (h0p : 0 ∉ p) (h0q : 0 ∉ q) (hne : p ≠ []) (hplen : p.length < pm - 1)
    (hends : endsSlash p = true)
    (hinfo : x.info = pUNDEFINED ∨ x.info = pCREATABLE)
    (hpath : x.path = p) (hlen : x.len = p.length) :
    ∃ x', classStep pm q idx x = some x' ∧ x'.path = p ∧ x'.len = p.length ∧
      x'.info ≠ pFILE ∧
      (x'.info = pUNDEFINED ∨ x'.info = pCREATABLE → x'.lastSlash = x.lastSlash) := by
  obtain ⟨hp1, hp2, hp3, hp4, hp5⟩ := classParent_fields q x
  have hcmp : comparePaths pm q (classParent q x).path ≠ pm := by
    rw [hp1, hpath]
    have := @comparePaths_le pm q _ h0p
    omega
  have hsl47 : charAt p (p.length - 1) = 47 := by
    unfold endsSlash at hends
    rwa [beq_iff_eq] at hends
  have hnotfile : ¬ existsAsFile q (classParent q x).path
      (comparePaths pm q (classParent q x).path) = true := by
    rw [hp1, hpath]
    intro hfi
    have := (existsAsFile_sound h0p h0q hfi).2
    rw [hends] at this
    cases this
  unfold classStep classBody
  rw [if_pos (by rw [hp4]; exact hinfo), if_neg hcmp, if_neg hnotfile]
  have hlen1 : (classParent q x).len - 1 = p.length - 1 := by rw [hp2, hlen]
  have hnapp : ¬ charAt (classParent q x).path ((classParent q x).len - 1) ≠ 47 := by
    rw [hp1, hpath, hlen1, hsl47]
    simp
  by_cases hed : existsAsEmptyDir pm q (classParent q x).path
      (comparePaths pm q (classParent q x).path) = true
  · rw [if_pos hed, if_neg hnapp]
    exact ⟨_, rfl, hp1.trans hpath, hp2.trans hlen, by simp [pEMPTYDIR, pFILE],
      by simp [pEMPTYDIR, pUNDEFINED, pCREATABLE]⟩
  · rw [if_neg hed]
    by_cases hnd : existsAsNonemptyDir pm q (classParent q x).path
        (comparePaths pm q (classParent q x).path) = true
    · rw [if_pos hnd, if_neg hnapp]
      exact ⟨_, rfl, hp1.trans hpath, hp2.trans hlen, by simp [pNONEMPTYDIR, pFILE],
        by simp [pNONEMPTYDIR, pUNDEFINED, pCREATABLE]⟩
    · rw [if_neg hnd]
      by_cases hid : invalidBecauseNotDirs pm q (classParent q x).path
          (comparePaths pm q (classParent q x).path) = true
      · rw [if_pos hid]
        exact ⟨_, rfl, hp1.trans hpath, hp2.trans hlen, by simp [pNOTDIRS, pFILE],
          by simp [pNOTDIRS, pUNDEFINED, pCREATABLE]⟩
      · rw [if_neg hid]
        by_cases hcr : creatableB q (classParent q x).path
            ((classParent q x).lastSlash + 1) = true
        · rw [if_pos hcr]
          refine ⟨_, rfl, hp1.trans hpath, hp2.trans hlen, ?_, fun _ => hp3⟩
          simp [pCREATABLE, pFILE]
        · rw [if_neg hcr]
          refine ⟨_, rfl, hp1.trans hpath, hp2.trans hlen, ?_, fun _ => hp3⟩
          rw [hp4]
          rcases hinfo with h | h <;> rw [h] <;> simp [pUNDEFINED, pCREATABLE, pFILE]

/-- Folding the record loop from a frozen state only counts parents. -/
theorem classFold_frozen {pm : Nat} {qs : List (List Nat)} :
    ∀ (idx : Nat) (x : XiPath), x.info ≠ pUNDEFINED → x.info ≠ pCREATABLE →
      ∃ x', classFold pm qs idx x = some x' ∧ x'.info = x.info ∧ x'.witness = x.witness := by
  induction qs with
  | nil => exact fun idx x _ _ => ⟨x, rfl, rfl, rfl⟩
  | cons q qs' ih =>
    intro idx x h1 h2
    obtain ⟨x1, hs, _, _, _, hinfo, hwit⟩ := @classStep_frozen pm q idx x h1 h2
    obtain ⟨x', hf, hinfo', hwit'⟩ := ih (idx + 1) x1 (by rw [hinfo]; exact h1)
      (by rw [hinfo]; exact h2)
    refine ⟨x', ?_, by rw [hinfo', hinfo], by rw [hwit', hwit]⟩
    show (match classStep pm q idx x with
      | some x' => classFold pm qs' (idx + 1) x'
      | none => none) = some x'
    rw [hs]
    exact hf

/-- Folding the record loop from a live state over conflict-free
records (query not ending in a slash): the loop succeeds, the final
classification is `EXISTS_AS_FILE` exactly when some record equals the
query, and then the witness is the first such record. -/
theorem classFold_live {pm : Nat} {p : List Nat} (h0p : 0 ∉ p) (hne : p ≠ [])
    (hplen : p.length < pm - 1) (hends : endsSlash p = false) :
    ∀ (qs : List (List Nat)) (idx : Nat) (x : XiPath),
      (∀ q ∈ qs, 0 ∉ q ∧ strictExt q p = false ∧ prefixBlock q p = false) →
      (x.info = pUNDEFINED ∨ x.info = pCREATABLE) →
      x.path = p → x.len = p.length →
      ∃ x', classFold pm qs idx x = some x' ∧
        (x'.info = pFILE ↔ p ∈ qs) ∧
        (x'.info = pFILE → x'.witness = some (idx + recIndex qs p)) := by
  intro qs
  induction qs with
  | nil =>
    intro idx x _ hinfo _ _
    refine ⟨x, rfl, ?_, ?_⟩
    · simp only [List.not_mem_nil, iff_false]
      intro h2
      rcases hinfo with h | h <;> rw [h2] at h <;> simp [pFILE, pUNDEFINED, pCREATABLE] at h
    · intro h2
      exfalso
      rcases hinfo with h | h <;> rw [h2] at h <;> simp [pFILE, pUNDEFINED, pCREATABLE] at h
  | cons q qs' ih =>
    intro idx x hq hinfo hpath hlen
    obtain ⟨h0q, hcse, hcpb⟩ := hq q (by simp)
    by_cases hqp : q = p
    · obtain ⟨x1, hs, hpa, hln, hls, hfile, _⟩ :=
        @classStep_live pm idx q p x h0p h0q hne hplen hends hcse hcpb
          hinfo hpath hlen
      obtain ⟨hinfo1, hwit1⟩ := hfile hqp
      obtain ⟨x', hf, hinfo', hwit'⟩ := @classFold_frozen pm qs' (idx + 1) x1
        (by rw [hinfo1]; simp [pFILE, pUNDEFINED]) (by rw [hinfo1]; simp [pFILE, pCREATABLE])
      refine ⟨x', ?_, ?_, ?_⟩
      · show (match classStep pm q idx x with
          | some x1 => classFold pm qs' (idx + 1) x1
          | none => none) = some x'
        rw [hs]
        exact hf
      · rw [hinfo', hinfo1]
        simp [hqp]
      · intro _
        rw [hwit', hwit1]
        have hz : recIndex (q :: qs') p = 0 := by simp [recIndex, hqp]
        rw [hz]
        rfl
    · obtain ⟨x1, hs, hpa, hln, hls, _, hlive⟩ :=
        @classStep_live pm idx q p x h0p h0q hne hplen hends hcse hcpb
          hinfo hpath hlen
      obtain ⟨x', hf, hiff, hwit⟩ := ih (idx + 1) x1
        (fun q' hq' => hq q' (by simp [hq'])) (hlive hqp) hpa hln
      refine ⟨x', ?_, ?_, ?_⟩
      · show (match classStep pm q idx x with
          | some x1 => classFold pm qs' (idx + 1) x1
          | none => none) = some x'
        rw [hs]
        exact hf
      · rw [hiff, List.mem_cons]
        constructor
        · exact Or.inr
        · rintro (h | h)
          · exact absurd h.symm hqp
          · exact h
      · intro h2
        rw [hwit h2]
        have hs' : recIndex (q :: qs') p = recIndex qs' p + 1 := by simp [recIndex, hqp]
        rw [hs']
        congr 1
        omega

/-- Folding the record loop from a live state for a query ending in a
slash: the loop succeeds and never classifies the query as
`EXISTS_AS_FILE`. -/
theorem classFold_noFile {pm : Nat} {p : List Nat} (h0p : 0 ∉ p) (hne : p ≠ [])
    (hplen : p.length < pm - 1) (hends : endsSlash p = true) :
    ∀ (qs : List (List Nat)) (idx : Nat) (x : XiPath),
      (∀ q ∈ qs, 0 ∉ q) →
      (x.info = pUNDEFINED ∨ x.info = pCREATABLE) →
      x.path = p → x.len = p.length →
      ∃ x', classFold pm qs idx x = some x' ∧ x'.info ≠ pFILE := by
  intro qs
  induction qs with
  | nil =>
    intro idx x _ hinfo _ _
    refine ⟨x, rfl, ?_⟩
    intro h2
    rcases hinfo with h | h <;> rw [h2] at h <;> simp [pFILE, pUNDEFINED, pCREATABLE] at h
  | cons q qs' ih =>
    intro idx x hq hinfo hpath hlen
    obtain ⟨x1, hs, hpa, hln, hnf, hls⟩ :=
      @classStep_live_slash pm idx q p x h0p (hq q (by simp)) hne hplen hends
        hinfo hpath hlen
    by_cases hlive : x1.info = pUNDEFINED ∨ x1.info = pCREATABLE
    · obtain ⟨x', hf, hne'⟩ := ih (idx + 1) x1 (fun q' hq' => hq q' (by simp [hq']))
        hlive hpa hln
      refine ⟨x', ?_, hne'⟩
      show (match classStep pm q idx x with
        | some x1 => classFold pm qs' (idx + 1) x1
        | none => none) = some x'
      rw [hs]
      exact hf
    · push_neg at hlive
      obtain ⟨x', hf, hinfo', _⟩ := @classFold_frozen pm qs' (idx + 1) x1
        hlive.1 hlive.2
      refine ⟨x', ?_, by rw [hinfo']; exact hnf⟩
      show (match classStep pm q idx x with
        | some x1 => classFold pm qs' (idx + 1) x1
        | none => none) = some x'
      rw [hs]
      exact hf

theorem xipathInit_fields (p : List Nat) :
    (xipathInit p).path = p ∧ (xipathInit p).len = p.length ∧
    (xipathInit p).info = pUNDEFINED := by
  unfold xipathInit
  by_cases h : p = [47]
  · rw [if_pos h, h]
    exact ⟨rfl, rfl, rfl⟩
  · rw [if_neg h]
    exact ⟨rfl, rfl, rfl⟩

/-- C6 (amended): for a query path that is NUL-free, starts with `/`
and fits the path buffer, over a record list in which no record
strictly extends the query at a `/` boundary and no `/`-delimited
strict prefix of the query is itself a record, `xipfs_path_new`
succeeds and assigns `EXISTS_AS_FILE` exactly when the query does not
end in `/` and is bytewise equal to some stored record, and then the
returned witness is the first such record; without the
conflict-freedom hypothesis the classifier is order-dependent and the
claimed equivalence fails (`c6_classifier_order_dependent`). -/
theorem c6_pathNew_exists_as_file (pm : Nat) (qs : List (List Nat)) (p : List Nat)
    (h0p : 0 ∉ p) (hplen : p.length < pm - 1) (hst : charAt p 0 = 47)
    (hq : ∀ q ∈ qs, 0 ∉ q ∧ strictExt q p = false ∧ prefixBlock q p = false) :
    ∃ x, pathNew pm qs p = some x ∧
      (x.info = pFILE ↔ endsSlash p = false ∧ p ∈ qs) ∧
      (x.info = pFILE → x.witness = some (recIndex qs p)) := by
  have hne : p ≠ [] := by
    intro h
    rw [h] at hst
    simp [charAt] at hst
  have h1 : (charAt p 0 == 0) = false := by rw [hst]; rfl
  have h2 : (charAt p 0 != 47) = false := by rw [hst]; rfl
  obtain ⟨hxp, hxl, hxi⟩ := xipathInit_fields p
  unfold pathNew
  rw [h1, h2]
  simp only [Bool.false_eq_true, if_false]
  cases qs with
  | nil =>
    have hinfo : (pathNewFinal (pathNewEmpty p)).info = pCREATABLE ∨
        (pathNewFinal (pathNewEmpty p)).info = pNOTFOUND := by
      unfold pathNewEmpty pathNewFinal
      by_cases hc : creatableB [47] (xipathInit p).path
          (if (xipathInit p).lastSlash > 0 then (xipathInit p).lastSlash - 1 else 0) = true
      · rw [if_pos hc, if_neg (by simp [pCREATABLE, pUNDEFINED])]
        left
        rfl
      · rw [if_neg hc, if_pos hxi]
        right
        rfl
    have hnf : (pathNewFinal (pathNewEmpty p)).info ≠ pFILE := by
      rcases hinfo with h | h <;> rw [h] <;>
        simp [pFILE, pCREATABLE, pNOTFOUND]
    refine ⟨_, rfl, ?_, ?_⟩
    · constructor
      · intro hfi
        exact absurd hfi hnf
      · rintro ⟨_, hmem⟩
        simp at hmem
    · intro hfi
      exact absurd hfi hnf
  | cons q qs' =>
    cases hE : endsSlash p with
    | false =>
      obtain ⟨x1, hf, hiff, hwit⟩ := classFold_live h0p hne hplen hE (q :: qs') 0
        (xipathInit p) hq (Or.inl hxi) hxp hxl
      refine ⟨pathNewFinal x1, ?_, ?_, ?_⟩
      · show (match classFold pm (q :: qs') 0 (xipathInit p) with
          | some y => some (pathNewFinal y)
          | none => none) = some (pathNewFinal x1)
        rw [hf]
      · by_cases hu : x1.info = pUNDEFINED
        · have hfin : (pathNewFinal x1).info = pNOTFOUND := by
            unfold pathNewFinal
            rw [if_pos hu]
          constructor
          · intro hfi
            rw [hfin] at hfi
            simp [pNOTFOUND, pFILE] at hfi
          · rintro ⟨_, hmem⟩
            have := hiff.mpr hmem
            rw [hu] at this
            simp [pUNDEFINED, pFILE] at this
        · have hfin : pathNewFinal x1 = x1 := by
            unfold pathNewFinal
            rw [if_neg hu]
          rw [hfin, hiff]
          simp
      · intro hfi
        by_cases hu : x1.info = pUNDEFINED
        · have hfin : (pathNewFinal x1).info = pNOTFOUND := by
            unfold pathNewFinal
            rw [if_pos hu]
          rw [hfin] at hfi
          simp [pNOTFOUND, pFILE] at hfi
        · have hfin : pathNewFinal x1 = x1 := by
            unfold pathNewFinal
            rw [if_neg hu]
          rw [hfin] at hfi ⊢
          rw [hwit hfi]
          congr 1
          omega
    | true =>
      obtain ⟨x1, hf, hnf⟩ := classFold_noFile h0p hne hplen hE (q :: qs') 0
        (xipathInit p) (fun q' h' => (hq q' h').1) (Or.inl hxi) hxp hxl
      have hnf' : (pathNewFinal x1).info ≠ pFILE := by
        unfold pathNewFinal
        by_cases hu : x1.info = pUNDEFINED
        · rw [if_pos hu]
          simp [pNOTFOUND, pFILE]
        · rw [if_neg hu]
          exact hnf
      refine ⟨pathNewFinal x1, ?_, ?_, ?_⟩
      · show (match classFold pm (q :: qs') 0 (xipathInit p) with
          | some y => some (pathNewFinal y)
          | none => none) = some (pathNewFinal x1)
        rw [hf]
      · constructor
        · intro hfi
          exact absurd hfi hnf'
        · rintro ⟨he, _⟩
          simp at he
      · intro hfi
        exact absurd hfi hnf'

/-- C6 counterexample: with stored records `/a/b` then `/a` and query
`/a` (which is stored bytewise and does not end in `/`), the
classifier returns `EXISTS_AS_NONEMPTY_DIR`, not `EXISTS_AS_FILE`:
the record `/a/b`, visited first, strictly extends the query and
freezes the classification before the exact match is visited. -/
theorem c6_classifier_order_dependent :
    [47, 97] ∈ [[47, 97, 47, 98], [47, 97]] ∧ endsSlash [47, 97] = false ∧
    (pathNew 8 [[47, 97, 47, 98], [47, 97]] [47, 97]).map XiPath.info =
      some pNONEMPTYDIR ∧ pNONEMPTYDIR ≠ pFILE := by
  decide

/-- C6 witness: the amended theorem applied to the records `/b`, `/a`
and the query `/a`. -/
theorem c6_pathNew_exists_as_file_witness :
    (0 ∉ ([47, 97] : List Nat)) ∧
    ∃ x, pathNew 8 [[47, 98], [47, 97]] [47, 97] = some x ∧
      (x.info = pFILE ↔ endsSlash [47, 97] = false ∧
        [47, 97] ∈ [[47, 98], [47, 97]]) ∧
      (x.info = pFILE → x.witness = some (recIndex [[47, 98], [47, 97]] [47, 97])) :=
  ⟨by decide, c6_pathNew_exists_as_file 8 [[47, 98], [47, 97]] [47, 97]
    (by decide) (by decide) (by decide) (by decide)⟩

/-! ## Claim C1 -/

theorem getD_lt_256 {l : List Nat} {i dflt : Nat} (hd : dflt < 256)
    (h : ∀ v ∈ l, v < 256) : l.getD i dflt < 256 := by
  rw [List.getD_eq_getElem?_getD]
  cases hg : l[i]? with
  | none => simpa using hd
  | some v =>
    have hm : v ∈ l := by
      have hlen : i < l.length := by
        by_contra hge
        rw [List.getElem?_eq_none (by omega)] at hg
        cases hg
      rw [List.getElem?_eq_getElem hlen] at hg
      cases hg
      exact List.getElem_mem _
    simpa using h v hm

/-- `xipfs_file_path_check` reads only the scanned window. -/
theorem pathScan_congr {F G : Flash} :
    ∀ (fuel st : Nat), (∀ x, st ≤ x → x ≤ st + fuel → G x = F x) →
      pathScan G st fuel = pathScan F st fuel := by
  intro fuel
  induction fuel with
  | zero =>
    intro st h
    unfold pathScan
    rw [h st (le_refl st) (by omega)]
  | succ n ih =>
    intro st h
    unfold pathScan
    rw [h st (le_refl st) (by omega),
      ih (st + 1) (fun x hx1 hx2 => h x (by omega) (by omega))]

/-- `xipfs_file_filp_check` reads only the header bytes of its record:
two flashes agreeing there validate identically. -/
theorem filpCheck_congr {c : Cfg} {F G : Flash} {a : Nat}
    (h : ∀ x, a ≤ x → x < a + c.hdrSize → G x = F x) :
    filpCheck c G a = filpCheck c F a := by
  have hhs : c.hdrSize = 12 + c.pathMax + 4 * c.slotMax := rfl
  have hrw : ∀ j, a ≤ j → j + 4 ≤ a + c.hdrSize → readWord G j = readWord F j := by
    intro j h1 h2
    unfold readWord
    rw [h j h1 (by omega), h (j + 1) (by omega) (by omega),
      h (j + 2) (by omega) (by omega), h (j + 3) (by omega) (by omega)]
  have hro : c.resOff = 4 + c.pathMax := rfl
  have hxo : c.execOff = 8 + c.pathMax + 4 * c.slotMax := rfl
  have e1 := hrw a (le_refl a) (by omega)
  have e2 := hrw (a + c.resOff) (by omega) (by omega)
  have e3 := hrw (a + c.execOff) (by omega) (by omega)
  have e4 := h (a + 4) (by omega) (by omega)
  have e5 := pathScan_congr (F := F) (G := G) c.pathMax (a + 4)
    (fun x hx1 hx2 => h x (by omega) (by omega))
  unfold filpCheck pathCheckMem
  rw [e1, e2, e3, e4, e5]

/-- Reading a 32-bit word from two flashes that agree on a 4-byte
window at the same offset from two base addresses. -/
theorem readWord_shift {F G : Flash} {a d o : Nat}
    (h : ∀ j, j < 4 → G (d + (o + j)) = F (a + (o + j))) :
    readWord G (d + o) = readWord F (a + o) := by
  unfold readWord
  have h0 := h 0 (by omega)
  have h1 := h 1 (by omega)
  have h2 := h 2 (by omega)
  have h3 := h 3 (by omega)
  rw [Nat.add_zero] at h0
  rw [show d + (o + 1) = d + o + 1 by omega, show a + (o + 1) = a + o + 1 by omega] at h1
  rw [show d + (o + 2) = d + o + 2 by omega, show a + (o + 2) = a + o + 2 by omega] at h2
  rw [show d + (o + 3) = d + o + 3 by omega, show a + (o + 3) = a + o + 3 by omega] at h3
  rw [h0, h1, h2, h3]

/-- The byte scan of `xipfs_file_path_check` depends only on the
scanned window, also across a change of base address. -/
theorem pathScan_shift {F G : Flash} :
    ∀ (fuel st st' : Nat), (∀ k, k ≤ fuel → G (st + k) = F (st' + k)) →
      pathScan G st fuel = pathScan F st' fuel := by
  intro fuel
  induction fuel with
  | zero =>
    intro st st' h
    have h0 := h 0 (by omega)
    rw [Nat.add_zero, Nat.add_zero] at h0
    unfold pathScan
    rw [h0]
  | succ n ih =>
    intro st st' h
    have h0 := h 0 (by omega)
    rw [Nat.add_zero, Nat.add_zero] at h0
    unfold pathScan
    rw [h0, ih (st + 1) (st' + 1) (fun k hk => by
      have h2 := h (k + 1) (by omega)
      rw [show st + (k + 1) = st + 1 + k by omega,
        show st' + (k + 1) = st' + 1 + k by omega] at h2
      exact h2)]

/-- A record passing `xipfs_file_filp_check` does not sit at NULL. -/
theorem filpCheck_ne_zero {c : Cfg} {F : Flash} {a : Nat}
    (h : filpCheck c F a = true) : a ≠ 0 := by
  unfold filpCheck at h
  simp only [Bool.and_eq_true, bne_iff_ne] at h
  exact h.1.1.1.1

/-- The branch-independent parts of a passed `xipfs_file_filp_check`:
the stored path is valid and the `exec` field is `0` or `1`. -/
theorem filpCheck_body {c : Cfg} {F : Flash} {a : Nat}
    (h : filpCheck c F a = true) :
    pathCheckMem c F a = true ∧
    (readWord F (a + c.execOff) = 0 ∨ readWord F (a + c.execOff) = 1) := by
  unfold filpCheck at h
  simp only [Bool.and_eq_true, Bool.or_eq_true, beq_iff_eq] at h
  exact ⟨h.1.2, h.2⟩

/-- A record whose header bytes 4.. are copied from a validated record
and whose `next` field points `r` bytes ahead (aligned, inside the
flash, matching the copied `reserved` field) passes
`xipfs_file_filp_check`. -/
theorem filpCheck_shifted {c : Cfg} {F G : Flash} {a d r : Nat}
    (hck : filpCheck c F a = true) (hd0 : d ≠ 0) (hr : 0 < r)
    (hnext : readWord G d = d + r)
    (halign : (d + r) % c.pageSize = 0) (hin : d + r < flashEnd c)
    (hresF : readWord F (a + c.resOff) = r)
    (hbytes : ∀ i, 4 ≤ i → i < c.hdrSize → G (d + i) = F (a + i)) :
    filpCheck c G d = true := by
  have hhs : c.hdrSize = 12 + c.pathMax + 4 * c.slotMax := rfl
  have hro : c.resOff = 4 + c.pathMax := rfl
  have hxo : c.execOff = 8 + c.pathMax + 4 * c.slotMax := rfl
  obtain ⟨hpm, hex⟩ := filpCheck_body hck
  have hres : readWord G (d + c.resOff) = r := by
    rw [readWord_shift (fun j hj => hbytes (c.resOff + j) (by omega) (by omega))]
    exact hresF
  have hexec : readWord G (d + c.execOff) = readWord F (a + c.execOff) :=
    readWord_shift (fun j hj => hbytes (c.execOff + j) (by omega) (by omega))
  have hpmG : pathCheckMem c G d = true := by
    unfold pathCheckMem at hpm ⊢
    simp only [Bool.and_eq_true, bne_iff_ne] at hpm ⊢
    refine ⟨?_, ?_⟩
    · rw [hbytes 4 (by omega) (by omega)]
      exact hpm.1
    · rw [pathScan_shift c.pathMax (d + 4) (a + 4) (fun k hk => by
        rw [show d + 4 + k = d + (4 + k) by omega, show a + 4 + k = a + (4 + k) by omega]
        exact hbytes (4 + k) (by omega) (by omega))]
      exact hpm.2
  unfold filpCheck
  simp only [hnext, hres, hexec]
  rw [if_pos (show d + r ≠ d by omega)]
  simp only [Bool.and_eq_true, bne_iff_ne, beq_iff_eq, Bool.or_eq_true,
    decide_eq_true_eq, pageAligned, flashIn]
  exact ⟨⟨⟨⟨hd0, by omega⟩, ⟨⟨⟨halign, hin⟩, by omega⟩, trivial⟩⟩, hpmG⟩, hex⟩

/-- A record whose header bytes 4.. are copied from a validated record
and whose `next` field points to itself passes
`xipfs_file_filp_check`. -/
theorem filpCheck_shifted_loop {c : Cfg} {F G : Flash} {a d : Nat}
    (hck : filpCheck c F a = true) (hd0 : d ≠ 0)
    (hnext : readWord G d = d)
    (hbytes : ∀ i, 4 ≤ i → i < c.hdrSize → G (d + i) = F (a + i)) :
    filpCheck c G d = true := by
  have hhs : c.hdrSize = 12 + c.pathMax + 4 * c.slotMax := rfl
  have hxo : c.execOff = 8 + c.pathMax + 4 * c.slotMax := rfl
  obtain ⟨hpm, hex⟩ := filpCheck_body hck
  have hexec : readWord G (d + c.execOff) = readWord F (a + c.execOff) :=
    readWord_shift (fun j hj => hbytes (c.execOff + j) (by omega) (by omega))
  have hpmG : pathCheckMem c G d = true := by
    unfold pathCheckMem at hpm ⊢
    simp only [Bool.and_eq_true, bne_iff_ne] at hpm ⊢
    refine ⟨?_, ?_⟩
    · rw [hbytes 4 (by omega) (by omega)]
      exact hpm.1
    · rw [pathScan_shift c.pathMax (d + 4) (a + 4) (fun k hk => by
        rw [show d + 4 + k = d + (4 + k) by omega, show a + 4 + k = a + (4 + k) by omega]
        exact hbytes (4 + k) (by omega) (by omega))]
      exact hpm.2
  unfold filpCheck
  simp only [hnext, hexec]
  rw [if_neg (show ¬d ≠ d from fun h => h rfl)]
  simp only [Bool.and_eq_true, bne_iff_ne, Bool.or_eq_true, beq_iff_eq]
  exact ⟨⟨⟨⟨hd0, hd0⟩, trivial⟩, hpmG⟩, hex⟩

/-- The head of a stored file list is a validated record. -/
theorem chain_head {c : Cfg} {F : Flash} {a : Nat} {rs : List Nat}
    (h : chain c F a rs = true) : filpCheck c F a = true := by
  cases rs with
  | nil =>
    simp only [chain, Bool.and_eq_true] at h
    exact h.1
  | cons r rs' =>
    simp only [chain, Bool.and_eq_true] at h
    exact h.1.1.1.2

/-- Along a stored file list the `next` field stays inside the flash. -/
theorem chain_readWord_lt {c : Cfg} {F : Flash} {a : Nat} {rs : List Nat}
    (h : chain c F a rs = true) (ha : a < flashEnd c) :
    readWord F a < flashEnd c := by
  cases rs with
  | nil =>
    simp only [chain, Bool.and_eq_true, beq_iff_eq] at h
    rw [h.2]
    exact ha
  | cons r rs' =>
    simp only [chain, Bool.and_eq_true, beq_iff_eq, decide_eq_true_eq] at h
    obtain ⟨⟨⟨⟨hr, hck⟩, hnx⟩, -⟩, -⟩ := h
    exact (filpCheck_next_facts hck (by rw [hnx]; omega)).2.1

/-- A stored file list occupies at least one page per record, which
bounds its length by the flash size. -/
theorem chain_bound {c : Cfg} {F : Flash} (hP : 0 < c.pageSize) :
    ∀ (rs : List Nat) (a : Nat), chain c F a rs = true →
      a % c.pageSize = 0 → a < flashEnd c →
      a + rs.length * c.pageSize < flashEnd c := by
  intro rs
  induction rs with
  | nil =>
    intro a _ _ ha
    simpa using ha
  | cons r rs' ih =>
    intro a hch hmod ha
    simp only [chain, Bool.and_eq_true, beq_iff_eq, decide_eq_true_eq] at hch
    obtain ⟨⟨⟨⟨hr, hck⟩, hnx⟩, -⟩, hrest⟩ := hch
    obtain ⟨-, hlt, hal⟩ := filpCheck_next_facts hck (by rw [hnx]; omega)
    rw [hnx] at hlt hal
    have hdvd : c.pageSize ∣ r := by
      have d2 := Nat.dvd_sub' (Nat.dvd_of_mod_eq_zero hal) (Nat.dvd_of_mod_eq_zero hmod)
      rwa [Nat.add_sub_cancel_left] at d2
    have hrP : c.pageSize ≤ r := Nat.le_of_dvd hr hdvd
    have hih := ih (a + r) hrest hal hlt
    have hm : (rs'.length + 1) * c.pageSize = rs'.length * c.pageSize + c.pageSize := by
      ring
    simp only [List.length_cons]
    omega

/-- Iterating `xipfs_fs_next` along a stored file list visits its
records in order. -/
theorem chain_iterates {c : Cfg} {F : Flash} (hEnd : flashEnd c < eraseWord) :
    ∀ (rs : List Nat) (a : Nat), chain c F a rs = true → a < flashEnd c →
      iterates c F a rs := by
  intro rs
  induction rs with
  | nil =>
    intro a h _
    simp only [chain, Bool.and_eq_true, beq_iff_eq] at h
    show fsNextR c F a = .ok none
    unfold fsNextR
    rw [h.1]
    simp only [Bool.not_true, Bool.false_eq_true, if_false]
    rw [h.2, if_pos (by simp)]
  | cons r rs' ih =>
    intro a h ha
    simp only [chain, Bool.and_eq_true, beq_iff_eq, decide_eq_true_eq] at h
    obtain ⟨⟨⟨⟨hr, hck⟩, hnx⟩, -⟩, hrest⟩ := h
    obtain ⟨-, hlt, -⟩ := filpCheck_next_facts hck (by rw [hnx]; omega)
    rw [hnx] at hlt
    have hnv := chain_readWord_lt hrest hlt
    show fsNextR c F a = .ok (some (a + r)) ∧ iterates c F (a + r) rs'
    refine ⟨?_, ih (a + r) hrest hlt⟩
    unfold fsNextR
    rw [hck]
    simp only [Bool.not_true, Bool.false_eq_true, if_false]
    rw [hnx]
    rw [if_neg (by simp only [beq_iff_eq]; omega)]
    rw [if_neg (by simp only [beq_iff_eq]; omega)]
    rw [if_pos (chain_head hrest)]

/-- Pointwise effect of the erase loop of `xipfs_file_erase`. -/
theorem erasePages_spec (c : Cfg) :
    ∀ (n : Nat) (F : Flash) (start x : Nat),
      erasePages c F start n x =
        if start * c.pageSize ≤ x ∧ x < (start + n) * c.pageSize then eraseByte
        else F x := by
  intro n
  induction n with
  | zero =>
    intro F start x
    unfold erasePages
    rw [if_neg (by simp only [Nat.add_zero]; omega)]
  | succ n ih =>
    intro F start x
    unfold erasePages
    rw [ih, flashErasePage_spec]
    unfold pageAddr
    have h1 : (start + 1) * c.pageSize = start * c.pageSize + c.pageSize := by ring
    have h2 : (start + (n + 1)) * c.pageSize =
        start * c.pageSize + c.pageSize + n * c.pageSize := by ring
    have h3 : (start + 1 + n) * c.pageSize =
        start * c.pageSize + c.pageSize + n * c.pageSize := by ring
    rw [h1, h2, h3]
    split_ifs <;> omega

/-- The page-move loop of `xipfs_fs_remove` over `n` source pages whose
destination trails the source by an erased window: every source byte
lands `src - dst` lower (erased source pages are skipped, matching
their already-erased destination), the erased window slides up by `n`
pages, and nothing below the destination changes. -/
theorem copyPages_spec {c : Cfg} {F : Flash} (hP : 0 < c.pageSize)
    (hF : ∀ x, F x < 256) :
    ∀ (n : Nat) (G : Flash) (dst src : Nat),
      dst + c.pageSize ≤ src → src % c.pageSize = 0 →
      (∀ x, src ≤ x → G x = F x) →
      (∀ x, dst ≤ x → x < src → G x = eraseByte) →
      ∃ G', copyPages c G dst src n = some (G', dst + n * c.pageSize) ∧
        (∀ x, x < dst → G' x = G x) ∧
        (∀ i, i < n * c.pageSize → G' (dst + i) = F (src + i)) ∧
        (∀ x, dst + n * c.pageSize ≤ x → x < src + n * c.pageSize → G' x = eraseByte) ∧
        (∀ x, src + n * c.pageSize ≤ x → G' x = F x) := by
  intro n
  induction n with
  | zero =>
    intro G dst src hw hsrc hag her
    refine ⟨G, ?_, fun x _ => rfl, fun i hi => absurd hi (by simp), ?_, ?_⟩
    · unfold copyPages
      rw [Nat.zero_mul, Nat.add_zero]
    · intro x hx1 hx2
      rw [Nat.zero_mul, Nat.add_zero] at hx1 hx2
      exact her x hx1 hx2
    · intro x hx
      rw [Nat.zero_mul, Nat.add_zero] at hx
      exact hag x hx
  | succ n ih =>
    intro G dst src hw hsrc hag her
    have hpa : pageAddr c (pageOf c src) = src := by
      unfold pageAddr pageOf
      exact Nat.div_mul_cancel (Nat.dvd_of_mod_eq_zero hsrc)
    have hmul : (n + 1) * c.pageSize = c.pageSize + n * c.pageSize := by ring
    by_cases hskip : isErasedPage c G (pageOf c src) = true
    · have hsE : ∀ i, i < c.pageSize → G (src + i) = eraseByte := by
        intro i hi
        have h := isErasedPage_iff.mp hskip i hi
        rwa [hpa] at h
      obtain ⟨G', hcp, hbelow, hcopy, her', hab⟩ := ih G (dst + c.pageSize)
        (src + c.pageSize)
        (by omega) (by rw [Nat.add_mod_right]; exact hsrc)
        (fun x hx => hag x (by omega))
        (fun x hx1 hx2 => by
          by_cases hxs : x < src
          · exact her x (by omega) hxs
          · have h := hsE (x - src) (by omega)
            rwa [show src + (x - src) = x by omega] at h)
      refine ⟨G', ?_, ?_, ?_, ?_, ?_⟩
      · unfold copyPages
        rw [if_pos hskip, hcp,
          show dst + c.pageSize + n * c.pageSize = dst + (n + 1) * c.pageSize from by
            omega]
      · intro x hx
        exact hbelow x (by omega)
      · intro i hi
        rw [hmul] at hi
        by_cases hiP : i < c.pageSize
        · calc G' (dst + i) = G (dst + i) := hbelow _ (by omega)
            _ = eraseByte := her _ (by omega) (by omega)
            _ = G (src + i) := (hsE i hiP).symm
            _ = F (src + i) := hag _ (by omega)
        · have h := hcopy (i - c.pageSize) (by omega)
          rw [show dst + c.pageSize + (i - c.pageSize) = dst + i from by omega,
            show src + c.pageSize + (i - c.pageSize) = src + i from by omega] at h
          exact h
      · intro x hx1 hx2
        rw [hmul] at hx1 hx2
        exact her' x (by omega) (by omega)
      · intro x hx
        rw [hmul] at hx
        exact hab x (by omega)
    · obtain ⟨G1, hwb, hG1⟩ := writeBytes_erased
        ((List.range c.pageSize).map (fun i => G (src + i))) G dst
        (by
          intro k hk
          simp only [List.length_map, List.length_range] at hk
          exact her _ (by omega) (by omega))
        (by
          intro v hv
          obtain ⟨i, hi, rfl⟩ := List.mem_map.mp hv
          rw [hag _ (by omega)]
          exact hF _)
      have hlen1 : ((List.range c.pageSize).map (fun i => G (src + i))).length =
          c.pageSize := by
        simp only [List.length_map, List.length_range]
      have hG1spec : ∀ x, G1 x =
          if dst ≤ x ∧ x < dst + c.pageSize then G (src + (x - dst)) else G x := by
        intro x
        rw [hG1 x, hlen1]
        by_cases hx : dst ≤ x ∧ x < dst + c.pageSize
        · rw [if_pos hx, if_pos hx, map_range_getD (by omega)]
        · rw [if_neg hx, if_neg hx]
      have hG2spec : ∀ x, flashErasePage c G1 (pageOf c src) x =
          if src ≤ x ∧ x < src + c.pageSize then eraseByte else G1 x := by
        intro x
        rw [flashErasePage_spec, hpa]
      obtain ⟨G', hcp, hbelow, hcopy, her', hab⟩ := ih
        (flashErasePage c G1 (pageOf c src)) (dst + c.pageSize) (src + c.pageSize)
        (by omega) (by rw [Nat.add_mod_right]; exact hsrc)
        (fun x hx => by
          rw [hG2spec, if_neg (by omega), hG1spec, if_neg (by omega)]
          exact hag x (by omega))
        (fun x hx1 hx2 => by
          rw [hG2spec]
          by_cases hxs : src ≤ x
          · rw [if_pos (by omega)]
          · rw [if_neg (by omega), hG1spec, if_neg (by omega)]
            exact her x (by omega) (by omega))
      refine ⟨G', ?_, ?_, ?_, ?_, ?_⟩
      · unfold copyPages
        rw [if_neg hskip]
        simp only [hwb]
        rw [hcp,
          show dst + c.pageSize + n * c.pageSize = dst + (n + 1) * c.pageSize from by
            omega]
      · intro x hx
        rw [hbelow x (by omega), hG2spec, if_neg (by omega), hG1spec, if_neg (by omega)]
      · intro i hi
        rw [hmul] at hi
        by_cases hiP : i < c.pageSize
        · rw [hbelow _ (by omega), hG2spec, if_neg (by omega), hG1spec,
            if_pos (by omega), show dst + i - dst = i by omega]
          exact hag _ (by omega)
        · have h := hcopy (i - c.pageSize) (by omega)
          rw [show dst + c.pageSize + (i - c.pageSize) = dst + i from by omega,
            show src + c.pageSize + (i - c.pageSize) = src + i from by omega] at h
          exact h
      · intro x hx1 hx2
        rw [hmul] at hx1 hx2
        exact her' x (by omega) (by omega)
      · intro x hx
        rw [hmul] at hx
        exact hab x (by omega)

/-- The consolidation `while` loop of `xipfs_fs_remove` over a stored
file list whose records start `Δ` bytes above the destination cursor:
the loop succeeds and re-creates the list `Δ` bytes lower — interior
`next` fields at `dst + reserved`, the terminal self-loop at its new
address — copying every interior byte and the terminal's first page,
leaving a `Δ`-byte erased window past the moved terminal's first page
and touching nothing else. -/
theorem consolidate_chain {c : Cfg} {F : Flash}
    (hP : 0 < c.pageSize) (hhdr : c.hdrSize ≤ c.pageSize)
    (hEnd : flashEnd c < eraseWord) (hF : ∀ x, F x < 256) :
    ∀ (rs : List Nat) (fuel : Nat) (G : Flash) (a Δ : Nat),
      rs.length + 2 ≤ fuel →
      chain c F a rs = true →
      c.pageSize ≤ Δ → Δ % c.pageSize = 0 → Δ < a →
      a % c.pageSize = 0 → a < flashEnd c →
      (∀ x, a ≤ x → G x = F x) →
      (∀ x, a - Δ ≤ x → x < a → G x = eraseByte) →
      ∃ G', consolidate c fuel G (a - Δ) (some a) = some G' ∧
        chain c G' (a - Δ) rs = true ∧
        shifted c F G' Δ a rs ∧
        (∀ x, x < a - Δ → G' x = G x) ∧
        (∀ x, a + rs.sum - Δ + c.pageSize ≤ x → x < a + rs.sum + c.pageSize →
          G' x = eraseByte) ∧
        (∀ x, a + rs.sum + c.pageSize ≤ x → G' x = F x) := by
  intro rs
  induction rs with
  | nil =>
    intro fuel G a Δ hfuel hch hΔP hΔmod hΔa hamod haE hag her
    simp only [chain, Bool.and_eq_true, beq_iff_eq] at hch
    obtain ⟨hck, hloop⟩ := hch
    have hhs : c.hdrSize = 12 + c.pathMax + 4 * c.slotMax := rfl
    have hew : eraseWord = 4294967295 := rfl
    obtain ⟨f, rfl⟩ : ∃ f, fuel = f + 1 + 1 := ⟨fuel - 2, by omega⟩
    have hckG : filpCheck c G a = true := by
      rw [filpCheck_congr (fun x hx _ => hag x hx)]
      exact hck
    have hrwG : readWord G a = a := by
      unfold readWord
      rw [hag _ (by omega), hag _ (by omega), hag _ (by omega), hag _ (by omega)]
      exact hloop
    have hnx : fsNextR c G a = .ok none := by
      unfold fsNextR
      rw [hckG]
      simp only [Bool.not_true, Bool.false_eq_true, if_false]
      rw [hrwG, if_pos (by simp)]
    obtain ⟨G1, hw1, hG1⟩ := writeBytes_erased
      (le32 (a - Δ) ++ (List.range (c.hdrSize - 4)).map (fun i => G (a + 4 + i)))
      G (a - Δ)
      (by
        intro k hk
        simp only [List.length_append, le32_length, List.length_map,
          List.length_range] at hk
        exact her _ (by omega) (by omega))
      (by
        intro v hv
        rcases List.mem_append.mp hv with hv | hv
        · exact le32_mem_lt hv
        · obtain ⟨i, -, rfl⟩ := List.mem_map.mp hv
          rw [hag _ (by omega)]
          exact hF _)
    have hL1len : (le32 (a - Δ) ++ (List.range (c.hdrSize - 4)).map
        (fun i => G (a + 4 + i))).length = c.hdrSize := by
      simp only [List.length_append, le32_length, List.length_map, List.length_range]
      omega
    have hG1spec : ∀ x, G1 x =
        if a - Δ ≤ x ∧ x < a - Δ + c.hdrSize then
          (le32 (a - Δ) ++ (List.range (c.hdrSize - 4)).map
            (fun i => G (a + 4 + i))).getD (x - (a - Δ)) 0
        else G x := by
      intro x
      rw [hG1 x, hL1len]
    obtain ⟨G2, hw2, hG2⟩ := writeBytes_erased
      ((List.range (c.pageSize - c.hdrSize)).map (fun i => G1 (a + c.hdrSize + i)))
      G1 (a - Δ + c.hdrSize)
      (by
        intro k hk
        simp only [List.length_map, List.length_range] at hk
        rw [hG1spec, if_neg (by omega)]
        exact her _ (by omega) (by omega))
      (by
        intro v hv
        obtain ⟨i, hi, rfl⟩ := List.mem_map.mp hv
        rw [hG1spec, if_neg (by omega), hag _ (by omega)]
        exact hF _)
    have hL2len : ((List.range (c.pageSize - c.hdrSize)).map
        (fun i => G1 (a + c.hdrSize + i))).length = c.pageSize - c.hdrSize := by
      simp only [List.length_map, List.length_range]
    have hG2spec : ∀ x, G2 x =
        if a - Δ + c.hdrSize ≤ x ∧ x < a - Δ + c.pageSize then
          ((List.range (c.pageSize - c.hdrSize)).map
            (fun i => G1 (a + c.hdrSize + i))).getD (x - (a - Δ + c.hdrSize)) 0
        else G1 x := by
      intro x
      rw [hG2 x, hL2len]
      by_cases hx : a - Δ + c.hdrSize ≤ x ∧
          x < a - Δ + c.hdrSize + (c.pageSize - c.hdrSize)
      · rw [if_pos hx, if_pos (by omega)]
      · rw [if_neg hx, if_neg (by omega)]
    have hpaA : pageAddr c (pageOf c a) = a := by
      unfold pageAddr pageOf
      exact Nat.div_mul_cancel (Nat.dvd_of_mod_eq_zero hamod)
    have hF3spec : ∀ x, flashErasePage c G2 (pageOf c a) x =
        if a ≤ x ∧ x < a + c.pageSize then eraseByte else G2 x := by
      intro x
      rw [flashErasePage_spec, hpaA]
    have hcons : consolidate c (f + 1 + 1) G (a - Δ) (some a) =
        some (flashErasePage c G2 (pageOf c a)) := by
      simp only [consolidate, hnx, hrwG, Nat.sub_self, Nat.add_zero, Nat.zero_div,
        Nat.zero_sub, hw1, hw2, copyPages]
    have hbytesT : ∀ i, 4 ≤ i → i < c.pageSize →
        flashErasePage c G2 (pageOf c a) (a - Δ + i) = F (a + i) := by
      intro i h4 hiP
      rw [hF3spec, if_neg (by omega)]
      by_cases hih : i < c.hdrSize
      · rw [hG2spec, if_neg (by omega), hG1spec, if_pos (by omega),
          show a - Δ + i - (a - Δ) = i by omega,
          List.getD_append_right _ _ _ _ (by rw [le32_length]; omega), le32_length,
          map_range_getD (by omega),
          show a + 4 + (i - 4) = a + i by omega]
        exact hag _ (by omega)
      · rw [hG2spec, if_pos (by omega),
          show a - Δ + i - (a - Δ + c.hdrSize) = i - c.hdrSize by omega,
          map_range_getD (by omega),
          show a + c.hdrSize + (i - c.hdrSize) = a + i by omega,
          hG1spec, if_neg (by omega)]
        exact hag _ (by omega)
    have hnextT : readWord (flashErasePage c G2 (pageOf c a)) (a - Δ) = a - Δ := by
      have hbyte : ∀ j, j < 4 →
          flashErasePage c G2 (pageOf c a) (a - Δ + j) = leByte (a - Δ) j := by
        intro j hj
        rw [hF3spec, if_neg (by omega), hG2spec, if_neg (by omega), hG1spec,
          if_pos (by omega), show a - Δ + j - (a - Δ) = j by omega,
          List.getD_append _ _ _ _ (by rw [le32_length]; omega), le32_getD hj]
      have h0 := hbyte 0 (by omega)
      rw [Nat.add_zero] at h0
      unfold readWord
      rw [h0, hbyte 1 (by omega), hbyte 2 (by omega), hbyte 3 (by omega), le32_combine]
      exact Nat.mod_eq_of_lt (by omega)
    have hckT : filpCheck c (flashErasePage c G2 (pageOf c a)) (a - Δ) = true :=
      filpCheck_shifted_loop hck (by omega) hnextT
        (fun i h4 hih => hbytesT i h4 (by omega))
    refine ⟨flashErasePage c G2 (pageOf c a), hcons, ?_, ?_, ?_, ?_, ?_⟩
    · simp only [chain, Bool.and_eq_true, beq_iff_eq]
      exact ⟨hckT, hnextT⟩
    · exact ⟨hnextT, hbytesT⟩
    · intro x hx
      rw [hF3spec, if_neg (by omega), hG2spec, if_neg (by omega), hG1spec,
        if_neg (by omega)]
    · intro x hx1 hx2
      simp only [List.sum_nil, Nat.add_zero] at hx1 hx2
      by_cases hxa : a ≤ x
      · rw [hF3spec, if_pos (by omega)]
      · rw [hF3spec, if_neg (by omega), hG2spec, if_neg (by omega), hG1spec,
          if_neg (by omega)]
        exact her _ (by omega) (by omega)
    · intro x hx
      simp only [List.sum_nil, Nat.add_zero] at hx
      rw [hF3spec, if_neg (by omega), hG2spec, if_neg (by omega), hG1spec,
        if_neg (by omega)]
      exact hag _ (by omega)
  | cons r rs' ih =>
    intro fuel G a Δ hfuel hch hΔP hΔmod hΔa hamod haE hag her
    simp only [chain, Bool.and_eq_true, beq_iff_eq, decide_eq_true_eq] at hch
    obtain ⟨⟨⟨⟨hr, hck⟩, hnxF⟩, hresF⟩, hrest⟩ := hch
    obtain ⟨-, hltF, halF⟩ := filpCheck_next_facts hck (by rw [hnxF]; omega)
    rw [hnxF] at hltF halF
    have hhs : c.hdrSize = 12 + c.pathMax + 4 * c.slotMax := rfl
    have hew : eraseWord = 4294967295 := rfl
    have hdvd : c.pageSize ∣ r := by
      have d2 := Nat.dvd_sub' (Nat.dvd_of_mod_eq_zero halF)
        (Nat.dvd_of_mod_eq_zero hamod)
      rwa [Nat.add_sub_cancel_left] at d2
    have hrP : c.pageSize ≤ r := Nat.le_of_dvd hr hdvd
    have hrdiv : r / c.pageSize * c.pageSize = r := Nat.div_mul_cancel hdvd
    have hrdiv1 : 1 ≤ r / c.pageSize := (Nat.one_le_div_iff hP).mpr hrP
    have hn1 : (r / c.pageSize - 1) * c.pageSize = r - c.pageSize := by
      rw [Nat.sub_mul, hrdiv, Nat.one_mul]
    obtain ⟨f, rfl⟩ : ∃ f, fuel = f + 1 := ⟨fuel - 1, by omega⟩
    simp only [List.length_cons] at hfuel
    have hckG : filpCheck c G a = true := by
      rw [filpCheck_congr (fun x hx _ => hag x hx)]
      exact hck
    have hrwG : readWord G a = a + r := by
      unfold readWord
      rw [hag _ (by omega), hag _ (by omega), hag _ (by omega), hag _ (by omega)]
      exact hnxF
    have hckG' : filpCheck c G (a + r) = true := by
      rw [filpCheck_congr (fun x hx _ => hag x (by omega))]
      exact chain_head hrest
    have hrwF' : readWord F (a + r) < flashEnd c := chain_readWord_lt hrest hltF
    have hrwG' : readWord G (a + r) = readWord F (a + r) := by
      unfold readWord
      rw [hag _ (by omega), hag _ (by omega), hag _ (by omega), hag _ (by omega)]
    have hnx : fsNextR c G a = .ok (some (a + r)) := by
      unfold fsNextR
      rw [hckG]
      simp only [Bool.not_true, Bool.false_eq_true, if_false]
      rw [hrwG]
      rw [if_neg (by simp only [beq_iff_eq]; omega)]
      rw [hrwG', if_neg (by simp only [beq_iff_eq]; omega)]
      rw [if_pos hckG']
    obtain ⟨G1, hw1, hG1⟩ := writeBytes_erased
      (le32 (a - Δ + r) ++ (List.range (c.hdrSize - 4)).map (fun i => G (a + 4 + i)))
      G (a - Δ)
      (by
        intro k hk
        simp only [List.length_append, le32_length, List.length_map,
          List.length_range] at hk
        exact her _ (by omega) (by omega))
      (by
        intro v hv
        rcases List.mem_append.mp hv with hv | hv
        · exact le32_mem_lt hv
        · obtain ⟨i, -, rfl⟩ := List.mem_map.mp hv
          rw [hag _ (by omega)]
          exact hF _)
    have hL1len : (le32 (a - Δ + r) ++ (List.range (c.hdrSize - 4)).map
        (fun i => G (a + 4 + i))).length = c.hdrSize := by
      simp only [List.length_append, le32_length, List.length_map, List.length_range]
      omega
    have hG1spec : ∀ x, G1 x =
        if a - Δ ≤ x ∧ x < a - Δ + c.hdrSize then
          (le32 (a - Δ + r) ++ (List.range (c.hdrSize - 4)).map
            (fun i => G (a + 4 + i))).getD (x - (a - Δ)) 0
        else G x := by
      intro x
      rw [hG1 x, hL1len]
    obtain ⟨G2, hw2, hG2⟩ := writeBytes_erased
      ((List.range (c.pageSize - c.hdrSize)).map (fun i => G1 (a + c.hdrSize + i)))
      G1 (a - Δ + c.hdrSize)
      (by
        intro k hk
        simp only [List.length_map, List.length_range] at hk
        rw [hG1spec, if_neg (by omega)]
        exact her _ (by omega) (by omega))
      (by
        intro v hv
        obtain ⟨i, hi, rfl⟩ := List.mem_map.mp hv
        rw [hG1spec, if_neg (by omega), hag _ (by omega)]
        exact hF _)
    have hL2len : ((List.range (c.pageSize - c.hdrSize)).map
        (fun i => G1 (a + c.hdrSize + i))).length = c.pageSize - c.hdrSize := by
      simp only [List.length_map, List.length_range]
    have hG2spec : ∀ x, G2 x =
        if a - Δ + c.hdrSize ≤ x ∧ x < a - Δ + c.pageSize then
          ((List.range (c.pageSize - c.hdrSize)).map
            (fun i => G1 (a + c.hdrSize + i))).getD (x - (a - Δ + c.hdrSize)) 0
        else G1 x := by
      intro x
      rw [hG2 x, hL2len]
      by_cases hx : a - Δ + c.hdrSize ≤ x ∧
          x < a - Δ + c.hdrSize + (c.pageSize - c.hdrSize)
      · rw [if_pos hx, if_pos (by omega)]
      · rw [if_neg hx, if_neg (by omega)]
    have hpaA : pageAddr c (pageOf c a) = a := by
      unfold pageAddr pageOf
      exact Nat.div_mul_cancel (Nat.dvd_of_mod_eq_zero hamod)
    have hF3spec : ∀ x, flashErasePage c G2 (pageOf c a) x =
        if a ≤ x ∧ x < a + c.pageSize then eraseByte else G2 x := by
      intro x
      rw [flashErasePage_spec, hpaA]
    obtain ⟨G4, hcp, hbelow4, hcopy4, her4, hab4⟩ :=
      copyPages_spec hP hF (r / c.pageSize - 1) (flashErasePage c G2 (pageOf c a))
        (a - Δ + c.pageSize) (a + c.pageSize)
        (by omega)
        (by rw [Nat.add_mod_right]; exact hamod)
        (by
          intro x hx
          rw [hF3spec, if_neg (by omega), hG2spec, if_neg (by omega), hG1spec,
            if_neg (by omega)]
          exact hag _ (by omega))
        (by
          intro x hx1 hx2
          by_cases hxa : a ≤ x
          · rw [hF3spec, if_pos (by omega)]
          · rw [hF3spec, if_neg (by omega), hG2spec, if_neg (by omega), hG1spec,
              if_neg (by omega)]
            exact her _ (by omega) (by omega))
    rw [show a - Δ + c.pageSize + (r / c.pageSize - 1) * c.pageSize = a + r - Δ from by
      omega] at hcp
    obtain ⟨G5, hcons5, hchain5, hshift5, hbelow5, her5, hab5⟩ :=
      ih f G4 (a + r) Δ (by omega) hrest hΔP hΔmod (by omega) halF hltF
        (fun x hx => hab4 x (by omega))
        (fun x hx1 hx2 => her4 x (by omega) (by omega))
    have hcons : consolidate c (f + 1) G (a - Δ) (some a) = some G5 := by
      simp only [consolidate, hnx, hrwG, Nat.add_sub_cancel_left, hw1, hw2, hcp]
      exact hcons5
    have hbytes5 : ∀ i, 4 ≤ i → i < r → G5 (a - Δ + i) = F (a + i) := by
      intro i h4 hir
      rw [hbelow5 _ (by omega)]
      by_cases hiP : i < c.pageSize
      · rw [hbelow4 _ (by omega), hF3spec, if_neg (by omega)]
        by_cases hih : i < c.hdrSize
        · rw [hG2spec, if_neg (by omega), hG1spec, if_pos (by omega),
            show a - Δ + i - (a - Δ) = i by omega,
            List.getD_append_right _ _ _ _ (by rw [le32_length]; omega), le32_length,
            map_range_getD (by omega),
            show a + 4 + (i - 4) = a + i by omega]
          exact hag _ (by omega)
        · rw [hG2spec, if_pos (by omega),
            show a - Δ + i - (a - Δ + c.hdrSize) = i - c.hdrSize by omega,
            map_range_getD (by omega),
            show a + c.hdrSize + (i - c.hdrSize) = a + i by omega,
            hG1spec, if_neg (by omega)]
          exact hag _ (by omega)
      · have h := hcopy4 (i - c.pageSize) (by omega)
        rw [show a - Δ + c.pageSize + (i - c.pageSize) = a - Δ + i from by omega,
          show a + c.pageSize + (i - c.pageSize) = a + i from by omega] at h
        exact h
    have hnext5 : readWord G5 (a - Δ) = a - Δ + r := by
      have hbyte : ∀ j, j < 4 → G5 (a - Δ + j) = leByte (a - Δ + r) j := by
        intro j hj
        rw [hbelow5 _ (by omega), hbelow4 _ (by omega), hF3spec, if_neg (by omega),
          hG2spec, if_neg (by omega), hG1spec, if_pos (by omega),
          show a - Δ + j - (a - Δ) = j by omega,
          List.getD_append _ _ _ _ (by rw [le32_length]; omega), le32_getD hj]
      have h0 := hbyte 0 (by omega)
      rw [Nat.add_zero] at h0
      unfold readWord
      rw [h0, hbyte 1 (by omega), hbyte 2 (by omega), hbyte 3 (by omega), le32_combine]
      exact Nat.mod_eq_of_lt (by omega)
    have hres5 : readWord G5 (a - Δ + c.resOff) = r := by
      have hro : c.resOff = 4 + c.pathMax := rfl
      rw [readWord_shift (fun j hj => hbytes5 (c.resOff + j) (by omega) (by omega))]
      exact hresF
    have halign5 : (a - Δ + r) % c.pageSize = 0 := by
      have hd1 : c.pageSize ∣ (a - Δ + r) := by
        have h1 : c.pageSize ∣ a - Δ :=
          Nat.dvd_sub' (Nat.dvd_of_mod_eq_zero hamod) (Nat.dvd_of_mod_eq_zero hΔmod)
        exact Nat.dvd_add h1 hdvd
      exact Nat.mod_eq_zero_of_dvd hd1
    have hck5 : filpCheck c G5 (a - Δ) = true :=
      filpCheck_shifted hck (by omega) hr hnext5 halign5 (by omega) hresF
        (fun i h4 hih => hbytes5 i h4 (by omega))
    refine ⟨G5, hcons, ?_, ?_, ?_, ?_, ?_⟩
    · simp only [chain, Bool.and_eq_true, beq_iff_eq, decide_eq_true_eq]
      refine ⟨⟨⟨⟨hr, hck5⟩, hnext5⟩, hres5⟩, ?_⟩
      rw [show a - Δ + r = a + r - Δ from by omega]
      exact hchain5
    · show readWord G5 (a - Δ) = a - Δ + r ∧
        (∀ i, 4 ≤ i → i < r → G5 (a - Δ + i) = F (a + i)) ∧
        shifted c F G5 Δ (a + r) rs'
      exact ⟨hnext5, hbytes5, hshift5⟩
    · intro x hx
      rw [hbelow5 _ (by omega), hbelow4 _ (by omega), hF3spec, if_neg (by omega),
        hG2spec, if_neg (by omega), hG1spec, if_neg (by omega)]
    · intro x hx1 hx2
      simp only [List.sum_cons] at hx1 hx2
      exact her5 x (by omega) (by omega)
    · intro x hx
      simp only [List.sum_cons] at hx
      exact hab5 x (by omega)

/-- C1 (amended): `xipfs_fs_remove` on the head `A` of a stored file
list `[A, S1, ..., Sk]` erases `A`'s pages and shifts every subsequent
file down by `A.reserved` bytes.  Each interior record is re-created
in full at its lowered address — there the `next` field written at the
destination, `dst + (src->next - src)`, equals `dst + S.reserved`, and
every other byte of the reserved run is copied — but for the terminal
self-loop record `src->next - src = 0`, so its `next` is patched to
`dst` itself, re-creating the self-loop rather than pointing to
`dst + S.reserved` as claimed (`c1_terminal_next_not_dst_plus_reserved`),
and its page loop runs over `0 / FLASHPAGE_SIZE` pages, so only its
first page is moved.  Afterwards iterating `xipfs_fs_next` from the
old head address yields the remaining files in their original order at
addresses lowered by `A.reserved` with their payload bytes unchanged,
the `A.reserved` bytes past the moved terminal's first page are
erased, and everything above is untouched. -/
theorem c1_remove_consolidates (c : Cfg) (F : Flash) (a0 r0 : Nat) (rs : List Nat)
    (hP : 0 < c.pageSize) (hhdr : c.hdrSize ≤ c.pageSize)
    (hEnd : flashEnd c < eraseWord) (ha0 : a0 % c.pageSize = 0)
    (hchain : chain c F a0 (r0 :: rs) = true) (hF : ∀ x, F x < 256) :
    ∃ F', fsRemove c F a0 = some F' ∧
      chain c F' a0 rs = true ∧
      iterates c F' a0 rs ∧
      shifted c F F' r0 (a0 + r0) rs ∧
      (∀ x, x < a0 → F' x = F x) ∧
      (∀ x, a0 + rs.sum + c.pageSize ≤ x → x < a0 + r0 + rs.sum + c.pageSize →
        F' x = eraseByte) ∧
      (∀ x, a0 + r0 + rs.sum + c.pageSize ≤ x → F' x = F x) := by
  simp only [chain, Bool.and_eq_true, beq_iff_eq, decide_eq_true_eq] at hchain
  obtain ⟨⟨⟨⟨hr0, hck0⟩, hnx0⟩, hres0⟩, hrest⟩ := hchain
  obtain ⟨-, hlt0, hal0⟩ := filpCheck_next_facts hck0 (by rw [hnx0]; omega)
  rw [hnx0] at hlt0 hal0
  have ha0ne : a0 ≠ 0 := filpCheck_ne_zero hck0
  have hdvd0 : c.pageSize ∣ r0 := by
    have d2 := Nat.dvd_sub' (Nat.dvd_of_mod_eq_zero hal0) (Nat.dvd_of_mod_eq_zero ha0)
    rwa [Nat.add_sub_cancel_left] at d2
  have hr0P : c.pageSize ≤ r0 := Nat.le_of_dvd hr0 hdvd0
  have hr0mod : r0 % c.pageSize = 0 := Nat.mod_eq_zero_of_dvd hdvd0
  have hrw1 : readWord F (a0 + r0) < flashEnd c := chain_readWord_lt hrest hlt0
  have hnxR : fsNextR c F a0 = .ok (some (a0 + r0)) := by
    unfold fsNextR
    rw [hck0]
    simp only [Bool.not_true, Bool.false_eq_true, if_false]
    rw [hnx0]
    rw [if_neg (by simp only [beq_iff_eq]; omega)]
    rw [if_neg (by simp only [beq_iff_eq]; omega)]
    rw [if_pos (chain_head hrest)]
  have hfe : fileErase c F a0 =
      some (erasePages c F (pageOf c a0) (r0 / c.pageSize)) := by
    unfold fileErase
    rw [if_pos hck0, hres0]
  have e1 : pageOf c a0 * c.pageSize = a0 := by
    unfold pageOf
    exact Nat.div_mul_cancel (Nat.dvd_of_mod_eq_zero ha0)
  have e2 : (pageOf c a0 + r0 / c.pageSize) * c.pageSize = a0 + r0 := by
    rw [Nat.add_mul, e1, Nat.div_mul_cancel hdvd0]
  have hF1 : ∀ x, erasePages c F (pageOf c a0) (r0 / c.pageSize) x =
      if a0 ≤ x ∧ x < a0 + r0 then eraseByte else F x := by
    intro x
    rw [erasePages_spec, e1, e2]
  have hlen : rs.length < c.flashPages := by
    have hb := chain_bound hP rs (a0 + r0) hrest hal0 hlt0
    have hfe' : flashEnd c = c.flashPages * c.pageSize := rfl
    by_contra hge
    push_neg at hge
    have hmm := Nat.mul_le_mul_right c.pageSize hge
    omega
  obtain ⟨G', hcons, hchain', hshift', hbelow', her', hab'⟩ :=
    consolidate_chain hP hhdr hEnd hF rs (tailFuel c)
      (erasePages c F (pageOf c a0) (r0 / c.pageSize)) (a0 + r0) r0
      (by
        have ht : tailFuel c = c.flashPages + 2 := rfl
        omega)
      hrest hr0P hr0mod (by omega) hal0 hlt0
      (fun x hx => by rw [hF1, if_neg (by omega)])
      (fun x hx1 hx2 => by rw [hF1, if_pos (by omega)])
  rw [show a0 + r0 - r0 = a0 from by omega] at hcons hchain' hbelow'
  refine ⟨G', ?_, hchain', chain_iterates hEnd rs a0 hchain' (by omega), hshift',
    ?_, ?_, ?_⟩
  · unfold fsRemove
    simp only [hnxR, hfe]
    exact hcons
  · intro x hx
    rw [hbelow' x hx, hF1, if_neg (by omega)]
  · intro x hx1 hx2
    exact her' x (by omega) (by omega)
  · intro x hx
    exact hab' x (by omega)

set_option maxRecDepth 8192 in
/-- C1 counterexample: removing `/a` (one reserved page) in front of
the terminal self-loop `/b` (one reserved page, at 128) writes `/b`'s
record at 64 with `next` field 64 — the re-created self-loop `dst +
(src->next - src)` — whereas the claim requires `dst + S.reserved =
64 + 64 = 128`. -/
theorem c1_terminal_next_not_dst_plus_reserved :
    (fsRemove cfg1 flashC1 64).map (fun G => readWord G 64) = some 64 ∧
    readWord flashC1 (128 + cfg1.resOff) = 64 ∧ (64 : Nat) ≠ 64 + 64 := by
  decide

set_option maxRecDepth 16384 in
/-- C1 witness: the amended theorem applied to the concrete three-file
chain `[/a at 64 (one page), /b at 128 (two pages), /c terminal at
256]`. -/
theorem c1_remove_consolidates_witness :
    chain cfgW flashW 64 [64, 128] = true ∧
    ∃ F', fsRemove cfgW flashW 64 = some F' ∧
      chain cfgW F' 64 [128] = true ∧
      iterates cfgW F' 64 [128] ∧
      shifted cfgW flashW F' 64 (64 + 64) [128] ∧
      (∀ x, x < 64 → F' x = flashW x) ∧
      (∀ x, 64 + [128].sum + cfgW.pageSize ≤ x →
        x < 64 + 64 + [128].sum + cfgW.pageSize → F' x = eraseByte) ∧
      (∀ x, 64 + 64 + [128].sum + cfgW.pageSize ≤ x → F' x = flashW x) :=
  ⟨by decide,
   c1_remove_consolidates cfgW flashW 64 64 [128] (by decide) (by decide) (by decide)
     (by decide) (by decide)
     (fun x => by
       show (List.replicate 64 eraseByte ++ hdrW1 ++ List.replicate 32 eraseByte ++
         hdrW2 ++ [66] ++ List.replicate 31 eraseByte ++ [67] ++
         List.replicate 63 eraseByte ++ hdrW3 ++ [68] ++ List.replicate 31 eraseByte ++
         List.replicate 64 eraseByte).getD x eraseByte < 256
       exact getD_lt_256 (by decide) (by decide))⟩

end Xipfs
